import Mathlib

set_option maxHeartbeats 1000000

/- Shallow embedding of the company-name deduplication engine of
   src/wallstreet_quant/utils.py (class CompanyDeduper).

   Strings are modeled as lists of characters with ASCII semantics:
   Python's str.lower, str.upper, re's \w and \s classes and NFKD
   normalization agree with the model on ASCII input (NFKD is the
   identity on ASCII), which covers every concrete input evaluated here.
   Floating-point similarity scores are modeled as exact rationals.  The
   external sentence-transformer embedder (together with the L2
   normalization done in CompanyDeduper._embed) is treated as an oracle
   parameter producing the embedding matrix, as the spec treats it as an
   external collaborator. -/

abbrev Name := List Char

/-- Model of the whitespace class used by Python str.split and re \s (ASCII part). -/
def isPySpace (c : Char) : Bool :=
  c == ' ' || c == '\t' || c == '\n' || c == '\r' || c == '\x0b' || c == '\x0c'

/-- Model of re's \w on ASCII: letters, digits and underscore. -/
def isWordChar (c : Char) : Bool := c.isAlphanum || c == '_'

/-- Lexicographic comparison of strings by code point, as Python list.sort uses on str. -/
def lexLe : Name → Name → Bool
  | [], _ => true
  | _ :: _, [] => false
  | a :: as, b :: bs => if a == b then lexLe as bs else decide (a < b)

/-- Insert a string into a lexLe-sorted list of strings, keeping it sorted. -/
def insortName (x : Name) : List Name → List Name
  | [] => [x]
  | y :: ys => if lexLe x y then x :: y :: ys else y :: insortName x ys

/-- Sorting of a list of strings: models Python sorted(...) on str
    (the result is the unique sorted rearrangement, since equal keys are equal strings). -/
def sortNames (l : List Name) : List Name := l.foldr insortName []

/-- Accumulator-based splitter: models Python str.split() with no argument
    (split on runs of whitespace, dropping empty tokens). -/
def pySplitAux : List Char → List Char → List Name
  | [], acc => if acc.isEmpty then [] else [acc.reverse]
  | c :: cs, acc =>
    if isPySpace c then
      if acc.isEmpty then pySplitAux cs [] else acc.reverse :: pySplitAux cs []
    else pySplitAux cs (c :: acc)

/-- Model of Python str.split() with no argument. -/
def pySplit (s : List Char) : List Name := pySplitAux s []

/-- Model of " ".join(tokens). -/
def joinSpaces (ts : List Name) : Name := List.intercalate [' '] ts

/-- The legal-suffix alternatives of CompanyDeduper._SUFFIXES, in source order.
    The regex _SUFFIX_RE is an alternation of these words; at any text position at
    most one alternative can match together with its trailing [\s.]-or-end test
    (no alternative is a prefix of another whose continuation starts with a
    whitespace, dot, or end), so the alternation order is immaterial. -/
def suffixStrings : List Name :=
  ["inc".toList, "incorporated".toList, "corp".toList, "corporation".toList,
   "co".toList, "company".toList, "companies".toList,
   "ltd".toList, "limited".toList, "plc".toList, "llc".toList, "llp".toList, "lp".toList,
   "gmbh".toList, "kg".toList, "ag".toList, "kgaa".toList, "se".toList,
   "sa".toList, "sas".toList, "sarl".toList, "spa".toList, "srl".toList, "sl".toList,
   "bv".toList, "nv".toList, "ab".toList, "oy".toList,
   "pte".toList, "pty".toList, "bhd".toList, "sdn bhd".toList, "kk".toList,
   "as".toList, "doo".toList]

/-- The character class [\s.] that _SUFFIX_RE requires after a suffix (unless at end). -/
def sepChar (c : Char) : Bool := isPySpace c || c == '.'

/-- Boolean list-prefix test (written out to keep the development self-contained). -/
def matchPre : List Char → List Char → Bool
  | [], _ => true
  | _ :: _, [] => false
  | a :: as, b :: bs => a == b && matchPre as bs

/-- Attempt to match one suffix alternative at the head of s, as the regex
    fragment suffix(?:[\s.]|$) does; on success return the text after the match. -/
def matchOne (suf s : List Char) : Option (List Char) :=
  if matchPre suf s then
    match s.drop suf.length with
    | [] => some []
    | c :: cs => if sepChar c then some cs else none
  else none

/-- Attempt to match _SUFFIX_RE (without its leading word-boundary, handled by the
    caller) at the head of s. -/
def matchSuffixAt (s : List Char) : Option (List Char) :=
  suffixStrings.findSome? (fun suf => matchOne suf s)

/-- Scanner realizing _SUFFIX_RE.sub(" ", s): left-to-right scan replacing each
    match by one space.  prevW records whether the previous character of the
    original text is a word character; since every alternative starts with a
    word character, the leading word boundary of the regex is equivalent to the
    previous character not being a word character (or being at the start). -/
def suffixSubFuel : Nat → Bool → List Char → List Char
  | 0, _, s => s
  | _ + 1, _, [] => []
  | f + 1, prevW, c :: cs =>
    if prevW then c :: suffixSubFuel f (isWordChar c) cs
    else
      match matchSuffixAt (c :: cs) with
      | some rest => ' ' :: suffixSubFuel f false rest
      | none => c :: suffixSubFuel f (isWordChar c) cs

/-- The scanner started with fuel equal to the text length, which always
    suffices because every step consumes at least one character. -/
def suffixSubAux (prevW : Bool) (s : List Char) : List Char :=
  suffixSubFuel s.length prevW s

/-- Model of _SUFFIX_RE.sub(" ", s) on an (already lowercased) string. -/
def suffixSub (s : List Char) : List Char := suffixSubAux false s

/-- Model of str.lower() (ASCII). -/
def lowerStr (s : List Char) : List Char := s.map Char.toLower

/-- Model of re.sub(r"[^\w ]", " ", s): replace every character that is neither
    a word character nor a space by a space. -/
def punctStrip (s : List Char) : List Char :=
  s.map (fun c => if isWordChar c || c == ' ' then c else ' ')

/-- Model of CompanyDeduper._normalise_unicode: unicodedata.normalize("NFKD", ·),
    which is the identity on the ASCII strings this development evaluates. -/
def normaliseUnicode (s : List Char) : List Char := s

/-- Model of CompanyDeduper._canonicalise. -/
def canonicalise (name : Name) : Name :=
  joinSpaces (sortNames (pySplit (punctStrip (suffixSub (lowerStr (normaliseUnicode name))))))

/-- Test for an ASCII uppercase letter, the class [A-Z] of _ACRONYM_RE and _TICKER_RE. -/
def isUpperAZ (c : Char) : Bool := 'A' ≤ c && c ≤ 'Z'

/-- Model of _ACRONYM_RE.fullmatch: ^[A-Z]{2,5}$. -/
def isAcronym (t : Name) : Bool :=
  decide (2 ≤ t.length) && decide (t.length ≤ 5) && t.all isUpperAZ

/-- Model of _TICKER_RE.fullmatch: ^[A-Z]{1,5}$. -/
def isTickerTok (t : Name) : Bool :=
  decide (1 ≤ t.length) && decide (t.length ≤ 5) && t.all isUpperAZ

/-- Lookup in the caller-supplied ticker map, modeled as an association list with
    distinct keys (a Python dict). -/
def tmLookup (tm : List (Name × Name)) (t : Name) : Option Name :=
  (tm.find? (fun p => p.1 == t)).map (fun p => p.2)

/-- Model of CompanyDeduper._expand_ticker. -/
def expandTicker (tm : List (Name × Name)) (tok : Name) : Name :=
  if isTickerTok tok then
    match tmLookup tm tok with
    | some full => full
    | none => tok
  else tok

/-- Model of str.upper() (ASCII). -/
def upperStr (s : List Char) : List Char := s.map Char.toUpper

/-- Word initials of a candidate: the uppercased first characters of its
    whitespace-separated words, as in join(w[0] for w in cand.split()).upper(). -/
def initialsOf (cand : Name) : Name :=
  upperStr ((pySplit cand).map (fun w => w.headD ' '))

/-- Model of CompanyDeduper._expand_acronym. -/
def expandAcronym (acr : Name) (univ : List Name) : Name :=
  match univ.find? (fun cand => initialsOf cand == upperStr acr) with
  | some c => c
  | none => acr

/-- The expansion a raw name receives in dedupe (steps 1 and 2 combined); the
    reconciliation pass of _to_clusters recomputes exactly this value. -/
def expandName (tm : List (Name × Name)) (step1 : List Name) (raw : Name) : Name :=
  let e1 := expandTicker tm raw
  if isAcronym e1 then expandAcronym e1 step1 else e1

/-- Fuel-based first-occurrence deduplication (fuel at least the list length
    always suffices, since each step strictly shortens the list). -/
def firstUniqFuel : Nat → List Name → List Name
  | 0, _ => []
  | _ + 1, [] => []
  | f + 1, k :: rest => k :: firstUniqFuel f (rest.filter (fun x => !(x == k)))

/-- First-occurrence deduplication, giving the key order of a Python dict built
    by insertion (defaultdict preserves first-insertion order of keys). -/
def firstUniq (l : List Name) : List Name := firstUniqFuel l.length l

/-- Bucket keys of dedupe step 3: canonical keys in first-occurrence order. -/
def bucketKeys (step2 : List Name) : List Name := firstUniq (step2.map canonicalise)

/-- Contents of the bucket of a canonical key: the expanded names with that key,
    in batch order (buckets[key] of the source). -/
def bucketOf (step2 : List Name) (key : Name) : List Name :=
  step2.filter (fun nm => canonicalise nm == key)

/-- The representative of a bucket: its first inserted name (names[0] of the source). -/
def repOf (step2 : List Name) (key : Name) : Name :=
  (step2.find? (fun nm => canonicalise nm == key)).getD []

/-- Representative list of dedupe, one per bucket in bucket order. -/
def repsList (step2 : List Name) : List Name :=
  (bucketKeys step2).map (repOf step2)

/-- Inner product of two embedding vectors (exact-rational model of the
    float inner product faiss IndexFlatIP computes). -/
def dotQ (a b : List ℚ) : ℚ := ((a.zip b).map (fun p => p.1 * p.2)).sum

/-- Score row of one query against the whole index: pairs (score, index). -/
def scoreRow (X : List (List ℚ)) (q : List ℚ) : List (ℚ × Nat) :=
  (X.map (dotQ q)).enum.map (fun p => (p.2, p.1))

/-- Ordering used to rank search results: higher score first, ties by lower index
    (faiss returns results by decreasing score; its tie order is unspecified, and
    every statement proved here is insensitive to the tie order). -/
def rankBefore (a b : ℚ × Nat) : Bool := decide (b.1 < a.1) || (a.1 == b.1 && decide (a.2 ≤ b.2))

/-- Insertion into a rankBefore-sorted list. -/
def insortRank (x : ℚ × Nat) : List (ℚ × Nat) → List (ℚ × Nat)
  | [] => [x]
  | y :: ys => if rankBefore x y then x :: y :: ys else y :: insortRank x ys

/-- Sort search results by rank. -/
def sortRank (l : List (ℚ × Nat)) : List (ℚ × Nat) := l.foldr insortRank []

/-- Model of index.search(X, k) for the exact index faiss.IndexFlatIP: for each
    query row, the k highest-inner-product entries of the index, best first.
    When k exceeds the index size faiss pads rows with index -1 and sentinel
    scores; padding entries can never satisfy the j > i guard below, so the
    model omits them and returns min(k, n) entries. -/
def faissSearch (X : List (List ℚ)) (k : Nat) : List (List (ℚ × Nat)) :=
  X.map (fun q => (sortRank (scoreRow X q)).take k)

/-- Undirected similarity graph: node count plus edge list; every stored edge
    (i, j) has i < j by construction of _build_graph. -/
structure SimGraph where
  n : Nat
  edges : List (Nat × Nat)

/-- Edges contributed by query row i: one edge (i, j) per returned neighbor j
    with j > i and score at least the threshold.  Those guards make duplicate
    insertions impossible (each row lists distinct indices), so the idempotent
    networkx add_edge is faithfully modeled by appending. -/
def rowEdges (th : ℚ) (i : Nat) (row : List (ℚ × Nat)) : List (Nat × Nat) :=
  (row.filter (fun sj => decide (i < sj.2) && decide (th ≤ sj.1))).map (fun sj => (i, sj.2))

/-- The graph _build_graph constructs from given search results: nodes 0..n-1
    and the guarded edges of every query row. -/
def buildGraphFromSearch (n : Nat) (rows : List (List (ℚ × Nat))) (th : ℚ) : SimGraph :=
  { n := n
    edges := rows.enum.flatMap (fun p => rowEdges th p.1 p.2) }

/-- Model of CompanyDeduper._build_graph on an embedding matrix X. -/
def buildGraph (X : List (List ℚ)) (k : Nat) (th : ℚ) : SimGraph :=
  buildGraphFromSearch X.length (faissSearch X k) th

/-- Boolean adjacency of the undirected graph. -/
def adjB (g : SimGraph) (u v : Nat) : Bool :=
  g.edges.contains (u, v) || g.edges.contains (v, u)

/-- Node list of the networkx graph: range n from add_nodes_from plus the
    endpoints add_edge inserts (membership is what matters; duplicates are kept). -/
def nodeList (g : SimGraph) : List Nat :=
  List.range g.n ++ g.edges.flatMap (fun e => [e.1, e.2])

/-- Degree of a node: number of incident edges. -/
def gDegree (g : SimGraph) (v : Nat) : Nat :=
  (g.edges.filter (fun e => e.1 == v || e.2 == v)).length

/-- Number of incident edges leading to a higher-indexed node. -/
def upDegree (g : SimGraph) (v : Nat) : Nat :=
  (g.edges.filter (fun e => e.1 == v)).length

/-- One saturation step of connectivity: grow a node set by all in-range
    neighbors of its members. -/
def satStep (g : SimGraph) (s : List Nat) : List Nat :=
  (List.range g.n).filter (fun v => s.contains v || s.any (fun u => adjB g u v))

/-- Iterated saturation. -/
def satIter (g : SimGraph) : Nat → List Nat → List Nat
  | 0, s => s
  | m + 1, s => satStep g (satIter g m s)

/-- Members connected to v, as a canonical (ascending, duplicate-free) list:
    n saturation steps reach a fixpoint of satStep, hence the full connected
    component.  This models the node set of the component that
    nx.connected_components yields for v. -/
def compMems (g : SimGraph) (v : Nat) : List Nat :=
  satIter g g.n ((List.range g.n).filter (fun w => w == v))

/-- Leader test: v is the least node of its connected component.  Components of
    nx.connected_components appear in order of their least node, because nodes
    were inserted in the order 0..n-1 and the generator yields the component of
    the first not-yet-seen node. -/
def isLeader (g : SimGraph) (v : Nat) : Bool := (compMems g v).head? == some v

/-- Connected components of the graph, each as an ascending list of nodes, in
    order of their least node.  (The iteration order of nodes inside one
    component set is a Python set-iteration detail; no claim proved here
    depends on it, and the ascending order is used throughout.) -/
def gComponents (g : SimGraph) : List (List Nat) :=
  (List.range g.n).filterMap (fun v => if isLeader g v then some (compMems g v) else none)

/-- Insert into the name-to-cluster-id mapping (Python dict assignment:
    overwrite the key if present, add it otherwise). -/
def dinsert (m : List (Name × Nat)) (key : Name) (v : Nat) : List (Name × Nat) :=
  (key, v) :: m.filter (fun p => !(p.1 == key))

/-- Dict lookup in the name-to-cluster-id mapping. -/
def dlookup (m : List (Name × Nat)) (key : Name) : Option Nat :=
  (m.find? (fun p => p.1 == key)).map (fun p => p.2)

/-- Member lists of the component clusters: for each component, the
    concatenation of the buckets of its representatives' canonical keys
    (the first loop of _to_clusters). -/
def clustersOfComps (g : SimGraph) (reps : List Name) (step2 : List Name) : List (List Name) :=
  (gComponents g).map (fun comp =>
    comp.flatMap (fun repIdx => bucketOf step2 (canonicalise (reps.getD repIdx []))))

/-- Component representatives: the representative of the first node of each
    component (next(iter(comp)) of the source; see gComponents on order). -/
def repsOfComps (g : SimGraph) (reps : List Name) : List Name :=
  (gComponents g).map (fun comp => reps.getD (comp.headD 0) [])

/-- The assignment loop of _to_clusters: name2cid[m] = cid for every member m of
    every cluster cid. -/
def assignMembers (clusters : List (List Name)) : List (Name × Nat) :=
  clusters.enum.foldl (fun m p => p.2.foldl (fun m nm => dinsert m nm p.1) m) []

/-- The membership probe of the reconciliation pass: index of the first cluster
    containing the raw name or its recomputed expansion. -/
def findCluster (clusters : List (List Name)) (raw expanded : Name) : Option Nat :=
  (clusters.enum.find? (fun p => p.2.contains raw || p.2.contains expanded)).map (fun p => p.1)

/-- Step 1 of dedupe: ticker expansion of every raw name, in batch order. -/
def step1Of (tm : List (Name × Name)) (raw_names : List Name) : List Name :=
  raw_names.map (expandTicker tm)

/-- Step 2 of dedupe: acronym expansion of every ticker-expanded name against
    the full ticker-expanded batch. -/
def step2Of (tm : List (Name × Name)) (raw_names : List Name) : List Name :=
  (step1Of tm raw_names).map
    (fun tok => if isAcronym tok then expandAcronym tok (step1Of tm raw_names) else tok)

/-- State threaded through the reconciliation pass. -/
structure ResolveState where
  clusters : List (List Name)
  name2cid : List (Name × Nat)
  representatives : List Name

/-- One reconciliation step of _to_clusters for one raw name: if it is not yet
    mapped, probe the clusters with the name and its recomputed expansion; on a
    hit map it there, otherwise append it as a fresh singleton cluster. -/
def reconcileStep (tm : List (Name × Name)) (step1 : List Name)
    (st : ResolveState) (raw : Name) : ResolveState :=
  match dlookup st.name2cid raw with
  | some _ => st
  | none =>
    let expanded := expandName tm step1 raw
    match findCluster st.clusters raw expanded with
    | some cid => { st with name2cid := dinsert st.name2cid raw cid }
    | none =>
      { clusters := st.clusters ++ [[raw]]
        name2cid := dinsert st.name2cid raw st.clusters.length
        representatives := st.representatives ++ [raw] }

/-- Model of CompanyDeduper._to_clusters (components loop plus reconciliation). -/
def toClusters (tm : List (Name × Name)) (g : SimGraph) (reps : List Name)
    (step2 : List Name) (raw_names : List Name) : ResolveState :=
  let clusters0 := clustersOfComps g reps step2
  let st0 : ResolveState :=
    { clusters := clusters0
      name2cid := assignMembers clusters0
      representatives := repsOfComps g reps }
  raw_names.foldl (reconcileStep tm (step1Of tm raw_names)) st0

/-- The similarity graph dedupe builds: embed the bucket representatives with
    the embedder oracle and run _build_graph on the result. -/
def graphOf (tm : List (Name × Name)) (k : Nat) (th : ℚ)
    (embedFn : List Name → List (List ℚ)) (raw_names : List Name) : SimGraph :=
  buildGraph (embedFn (repsList (step2Of tm raw_names))) k th

/-- Model of CompanyDeduper.dedupe.  embedFn stands for the composite of the
    external sentence-transformer encoder and the normalization in _embed, an
    oracle per the spec; k is k_neighbors, th is cosine_th. -/
def dedupe (tm : List (Name × Name)) (k : Nat) (th : ℚ)
    (embedFn : List Name → List (List ℚ)) (raw_names : List Name) : ResolveState :=
  toClusters tm (graphOf tm k th embedFn raw_names)
    (repsList (step2Of tm raw_names)) (step2Of tm raw_names) raw_names

/-- Shorthand for building concrete names. -/
def nm (s : String) : Name := s.toList

/-- Ticker map of the C2 counterexample run: AAPL expands to Apple. -/
def tmApple : List (Name × Name) := [(nm "AAPL", nm "Apple")]

/-- Ticker map of the C3 counterexample run: one raw name (AAPL) coincides with
    the expansion of another raw name (Y). -/
def tmCollide : List (Name × Name) := [(nm "AAPL", nm "Apple"), (nm "Y", nm "AAPL")]

/-- Concrete embedder oracle: one standard-basis vector per representative, so
    all distinct representatives have inner product 0 (never above a positive
    threshold) and every row has unit norm. -/
def embedBasis : List Name → List (List ℚ) :=
  fun l => (List.range l.length).map
    (fun i => (List.range l.length).map (fun j => if i = j then (1 : ℚ) else 0))

/-- Concrete embedder oracle mapping every representative to the same unit vector. -/
def embedUnit : List Name → List (List ℚ) := fun l => l.map (fun _ => [(1 : ℚ)])

/-- Concrete unit-norm embedding matrix for the C8 counterexample: three
    vectors on a cone around the fourth, pairwise farther from each other than
    from it, so each of the first three rows has the fourth vector as its
    best non-self neighbor. -/
def starMatrix : List (List ℚ) :=
  [[mkRat 3 5, 0, mkRat 4 5],
   [mkRat (-3) 5, 0, mkRat 4 5],
   [0, mkRat 3 5, mkRat 4 5],
   [0, 0, 1]]

theorem matchOne_some_length {suf s r : List Char} (hs : s ≠ [])
    (h : matchOne suf s = some r) : r.length < s.length := by
  unfold matchOne at h
  split at h
  · split at h
    · simp only [Option.some.injEq] at h
      subst h
      simpa using List.length_pos.2 hs
    · rename_i d ds hd
      split at h
      · simp only [Option.some.injEq] at h
        subst h
        have hlen := congrArg List.length hd
        simp only [List.length_drop, List.length_cons] at hlen
        omega
      · exact absurd h (by simp)
  · exact absurd h (by simp)

theorem matchSuffixAt_some_length {s r : List Char} (hs : s ≠ [])
    (h : matchSuffixAt s = some r) : r.length < s.length := by
  unfold matchSuffixAt at h
  have hgen : ∀ (L : List Name), L.findSome? (fun suf => matchOne suf s) = some r →
      r.length < s.length := by
    intro L
    induction L with
    | nil => intro h'; simp at h'
    | cons a l ih =>
      intro h'
      rw [List.findSome?_cons] at h'
      cases ha : matchOne a s with
      | some v => rw [ha] at h'; exact matchOne_some_length hs (ha.trans h')
      | none => rw [ha] at h'; exact ih h'
  exact hgen suffixStrings h

theorem suffixSubFuel_congr : ∀ (f1 f2 : Nat) (prevW : Bool) (s : List Char),
    s.length ≤ f1 → s.length ≤ f2 → suffixSubFuel f1 prevW s = suffixSubFuel f2 prevW s := by
  intro f1
  induction f1 with
  | zero =>
    intro f2 prevW s h1 _
    have : s = [] := List.length_eq_zero.1 (Nat.le_zero.1 h1)
    subst this
    cases f2 <;> rfl
  | succ f ih =>
    intro f2 prevW s h1 h2
    cases s with
    | nil => cases f2 <;> rfl
    | cons c cs =>
      cases f2 with
      | zero => simp at h2
      | succ g =>
        simp only [List.length_cons] at h1 h2
        cases prevW with
        | true =>
          have hrec := ih g (isWordChar c) cs (by omega) (by omega)
          simp [suffixSubFuel, hrec]
        | false =>
          cases hm : matchSuffixAt (c :: cs) with
          | some rest =>
            have hlt : rest.length < cs.length + 1 := by
              simpa using matchSuffixAt_some_length (by simp) hm
            have hrec := ih g false rest (by omega) (by omega)
            simp [suffixSubFuel, hm, hrec]
          | none =>
            have hrec := ih g (isWordChar c) cs (by omega) (by omega)
            simp [suffixSubFuel, hm, hrec]

theorem suffixSubAux_nil (prevW : Bool) : suffixSubAux prevW [] = [] := rfl

theorem suffixSubAux_cons_true (c : Char) (cs : List Char) :
    suffixSubAux true (c :: cs) = c :: suffixSubAux (isWordChar c) cs := rfl

theorem suffixSubAux_cons_match {c : Char} {cs rest : List Char}
    (h : matchSuffixAt (c :: cs) = some rest) :
    suffixSubAux false (c :: cs) = ' ' :: suffixSubAux false rest := by
  have hlt : rest.length < cs.length + 1 := by
    simpa using matchSuffixAt_some_length (by simp) h
  have hcongr : suffixSubFuel cs.length false rest = suffixSubFuel rest.length false rest :=
    suffixSubFuel_congr _ _ _ _ (by omega) (le_refl _)
  show suffixSubFuel (cs.length + 1) false (c :: cs) = ' ' :: suffixSubFuel rest.length false rest
  simp [suffixSubFuel, h, hcongr]

theorem suffixSubAux_cons_nomatch {c : Char} {cs : List Char}
    (h : matchSuffixAt (c :: cs) = none) :
    suffixSubAux false (c :: cs) = c :: suffixSubAux (isWordChar c) cs := by
  show suffixSubFuel (cs.length + 1) false (c :: cs) = c :: suffixSubFuel cs.length (isWordChar c) cs
  simp [suffixSubFuel, h]

theorem firstUniqFuel_congr : ∀ (f1 f2 : Nat) (l : List Name),
    l.length ≤ f1 → l.length ≤ f2 → firstUniqFuel f1 l = firstUniqFuel f2 l := by
  intro f1
  induction f1 with
  | zero =>
    intro f2 l h1 _
    have : l = [] := List.length_eq_zero.1 (Nat.le_zero.1 h1)
    subst this
    cases f2 <;> rfl
  | succ f ih =>
    intro f2 l h1 h2
    cases l with
    | nil => cases f2 <;> rfl
    | cons k rest =>
      cases f2 with
      | zero => simp at h2
      | succ g =>
        simp only [List.length_cons] at h1 h2
        simp only [firstUniqFuel]
        have hf : (rest.filter (fun x => !(x == k))).length ≤ rest.length :=
          List.length_filter_le _ _
        exact congrArg _ (ih g _ (by omega) (by omega))

theorem firstUniq_nil : firstUniq [] = [] := rfl

theorem firstUniq_cons (k : Name) (rest : List Name) :
    firstUniq (k :: rest) = k :: firstUniq (rest.filter (fun x => !(x == k))) := by
  have hcongr := firstUniqFuel_congr rest.length (rest.filter (fun x => !(x == k))).length
    (rest.filter (fun x => !(x == k))) (List.length_filter_le _ _) (le_refl _)
  show firstUniqFuel (rest.length + 1) (k :: rest) =
    k :: firstUniqFuel (rest.filter (fun x => !(x == k))).length (rest.filter (fun x => !(x == k)))
  simp [firstUniqFuel, hcongr]

theorem mem_firstUniq : ∀ (l : List Name) (x : Name), x ∈ firstUniq l ↔ x ∈ l := by
  have key : ∀ (n : Nat) (l : List Name), l.length ≤ n → ∀ x, x ∈ firstUniq l ↔ x ∈ l := by
    intro n
    induction n with
    | zero =>
      intro l h x
      have : l = [] := List.length_eq_zero.1 (Nat.le_zero.1 h)
      subst this; simp [firstUniq_nil]
    | succ m ih =>
      intro l h x
      cases l with
      | nil => simp [firstUniq_nil]
      | cons k rest =>
        rw [firstUniq_cons]
        simp only [List.mem_cons]
        constructor
        · rintro (rfl | hx)
          · exact Or.inl rfl
          · have := (ih _ (by
              have := List.length_filter_le (fun x => !(x == k)) rest
              simp only [List.length_cons] at h
              omega) x).1 hx
            exact Or.inr (List.mem_of_mem_filter this)
        · rintro (rfl | hx)
          · exact Or.inl rfl
          · by_cases hxk : x = k
            · exact Or.inl hxk
            · refine Or.inr ((ih _ (by
                have := List.length_filter_le (fun x => !(x == k)) rest
                simp only [List.length_cons] at h
                omega) x).2 ?_)
              exact List.mem_filter.2 ⟨hx, by simp [hxk]⟩
  intro l x
  exact key l.length l (le_refl _) x

theorem firstUniq_nodup : ∀ (l : List Name), (firstUniq l).Nodup := by
  have key : ∀ (n : Nat) (l : List Name), l.length ≤ n → (firstUniq l).Nodup := by
    intro n
    induction n with
    | zero =>
      intro l h
      have : l = [] := List.length_eq_zero.1 (Nat.le_zero.1 h)
      subst this; simp [firstUniq_nil]
    | succ m ih =>
      intro l h
      cases l with
      | nil => simp [firstUniq_nil]
      | cons k rest =>
        rw [firstUniq_cons]
        refine List.nodup_cons.2 ⟨?_, ih _ (by
          have := List.length_filter_le (fun x => !(x == k)) rest
          simp only [List.length_cons] at h
          omega)⟩
        intro hk
        have := (mem_firstUniq _ _).1 hk
        have := (List.mem_filter.1 this).2
        simp at this
  intro l
  exact key l.length l (le_refl _)

theorem toUpper_of_isUpperAZ {c : Char} (h : isUpperAZ c = true) : c.toUpper = c := by
  simp only [isUpperAZ, Bool.and_eq_true, decide_eq_true_eq] at h
  obtain ⟨h1, h2⟩ := h
  rw [Char.le_def, UInt32.le_def] at h1 h2
  simp only [BitVec.le_def] at h1 h2
  have hu : c.toNat ≥ 65 ∧ c.toNat ≤ 90 := ⟨h1, h2⟩
  have hno : ¬ (c.toNat ≥ 97 ∧ c.toNat ≤ 122) := by omega
  unfold Char.toUpper
  simp [hno]

theorem upperStr_of_isAcronym {t : Name} (h : isAcronym t = true) : upperStr t = t := by
  simp only [isAcronym, Bool.and_eq_true, List.all_eq_true] at h
  have : t.map Char.toUpper = t.map id :=
    List.map_congr_left (fun c hc => toUpper_of_isUpperAZ (h.2 c hc))
  simpa [upperStr] using this

theorem find?_first_index {α} (p : α → Bool) : ∀ (l : List α) (i : Nat) (hi : i < l.length),
    p (l.get ⟨i, hi⟩) = true →
    (∀ j, ∀ hj : j < i, ¬ p (l.get ⟨j, Nat.lt_trans hj hi⟩) = true) →
    l.find? p = some (l.get ⟨i, hi⟩) := by
  intro l
  induction l with
  | nil => intro i hi; simp at hi
  | cons a as ih =>
    intro i hi hp hveto
    cases i with
    | zero =>
      simp only [List.get] at hp ⊢
      rw [List.find?_cons, hp]
    | succ i' =>
      have h0 : ¬ p a = true := hveto 0 (Nat.succ_pos i')
      rw [List.find?_cons]
      cases hpa : p a with
      | true => exact absurd hpa h0
      | false =>
        have hi' : i' < as.length := by simpa using Nat.lt_of_succ_lt_succ hi
        have := ih i' hi' (by simpa using hp)
          (fun j hj => by simpa using hveto (j + 1) (Nat.succ_lt_succ hj))
        simpa using this

/-- C7: for a token matching the 2-5 uppercase-letter acronym pattern,
    _expand_acronym returns the first candidate in batch order whose uppercased
    word initials equal the token, and returns the token itself, a defined
    value rather than an exception, when no candidate's initials match. -/
theorem c7_expand_acronym_contract (acr : Name) (batch : List Name)
    (hacr : isAcronym acr = true) :
    ((∀ cand ∈ batch, initialsOf cand ≠ acr) → expandAcronym acr batch = acr) ∧
    (∀ i : Nat, ∀ hi : i < batch.length,
      initialsOf (batch.get ⟨i, hi⟩) = acr →
      (∀ j, ∀ hj : j < i, initialsOf (batch.get ⟨j, Nat.lt_trans hj hi⟩) ≠ acr) →
      expandAcronym acr batch = batch.get ⟨i, hi⟩) := by
  have hup : upperStr acr = acr := upperStr_of_isAcronym hacr
  constructor
  · intro hnone
    unfold expandAcronym
    rw [hup]
    have : batch.find? (fun cand => initialsOf cand == acr) = none := by
      rw [List.find?_eq_none]
      intro x hx
      simpa using hnone x hx
    rw [this]
  · intro i hi hmatch hveto
    unfold expandAcronym
    rw [hup]
    have := find?_first_index (fun cand => initialsOf cand == acr) batch i hi
      (by simpa using hmatch)
      (fun j hj => by simpa using hveto j hj)
    rw [this]

/-- C7 witness: a concrete acronym and batch where the second candidate is the
    first initials match. -/
theorem c7_expand_acronym_contract_witness :
    expandAcronym (nm "IBM") [nm "Big Blue", nm "Intl Business Machines", nm "Ibm Corp"] =
      nm "Intl Business Machines" := by
  have h := (c7_expand_acronym_contract (nm "IBM")
    [nm "Big Blue", nm "Intl Business Machines", nm "Ibm Corp"] (by decide)).2
    1 (by decide) (by decide) (by decide)
  simpa using h

theorem mem_rowEdges {th : ℚ} {i : Nat} {row : List (ℚ × Nat)} {e : Nat × Nat} :
    e ∈ rowEdges th i row ↔ e.1 = i ∧ i < e.2 ∧ ∃ s, (s, e.2) ∈ row ∧ th ≤ s := by
  unfold rowEdges
  simp only [List.mem_map, List.mem_filter, Bool.and_eq_true, decide_eq_true_eq]
  constructor
  · rintro ⟨sj, ⟨hmem, hlt, hth⟩, rfl⟩
    exact ⟨rfl, hlt, sj.1, by simpa using hmem, hth⟩
  · rintro ⟨h1, hlt, s, hmem, hth⟩
    refine ⟨(s, e.2), ⟨hmem, hlt, hth⟩, ?_⟩
    cases e
    simp_all

theorem mem_buildGraphFromSearch_edges {n : Nat} {rows : List (List (ℚ × Nat))} {th : ℚ}
    {i j : Nat} :
    (i, j) ∈ (buildGraphFromSearch n rows th).edges ↔
      i < j ∧ ∃ s, (s, j) ∈ rows.getD i [] ∧ th ≤ s := by
  unfold buildGraphFromSearch
  simp only [List.mem_flatMap]
  constructor
  · rintro ⟨⟨pi, prow⟩, hp, hmem⟩
    obtain ⟨h1, hlt, s, hs, hth⟩ := mem_rowEdges.1 hmem
    simp only at h1 hlt hs
    subst h1
    have hget := List.mem_enum_iff_get?.1 hp
    simp only at hget
    refine ⟨hlt, s, ?_, hth⟩
    have : rows.getD i [] = prow := by
      rw [List.getD_eq_get?, hget]
      rfl
    rwa [this]
  · rintro ⟨hlt, s, hs, hth⟩
    cases hrow : rows[i]? with
    | none =>
      rw [List.getD_eq_getElem?_getD, hrow] at hs
      simp at hs
    | some row =>
      rw [List.getD_eq_getElem?_getD, hrow] at hs
      simp only [Option.getD_some] at hs
      refine ⟨(i, row), ?_, ?_⟩
      · rw [List.mem_enum_iff_get?]
        simpa using hrow
      · exact mem_rowEdges.2 ⟨rfl, hlt, s, hs, hth⟩

theorem contains_pair_iff {l : List (Nat × Nat)} {e : Nat × Nat} :
    l.contains e = true ↔ e ∈ l := by
  simp [List.contains]

/-- C6: the graph _build_graph returns from a batch of representatives and
    valid ANN search rows (one row per representative, neighbor indices in
    range) has exactly the representatives' indices as nodes, including
    isolated ones; it has an undirected edge between a and b exactly when the
    query of the smaller index returned the larger index with a score at least
    the threshold; and it has no self-loops. -/
theorem c6_build_graph_postcondition (n : Nat) (rows : List (List (ℚ × Nat))) (th : ℚ)
    (hlen : rows.length = n)
    (hvalid : ∀ row ∈ rows, ∀ sj ∈ row, sj.2 < n) :
    (∀ v, v ∈ nodeList (buildGraphFromSearch n rows th) ↔ v < n) ∧
    (∀ a b, adjB (buildGraphFromSearch n rows th) a b = true ↔
      ((a < b ∧ ∃ s, (s, b) ∈ rows.getD a [] ∧ th ≤ s) ∨
       (b < a ∧ ∃ s, (s, a) ∈ rows.getD b [] ∧ th ≤ s))) ∧
    (∀ a, adjB (buildGraphFromSearch n rows th) a a = false) := by
  have hedge : ∀ i j, (i, j) ∈ (buildGraphFromSearch n rows th).edges →
      i < n ∧ j < n := by
    intro i j hm
    obtain ⟨hlt, s, hs, _⟩ := mem_buildGraphFromSearch_edges.1 hm
    cases hrow : rows[i]? with
    | none =>
      rw [List.getD_eq_getElem?_getD, hrow] at hs
      simp at hs
    | some row =>
      rw [List.getD_eq_getElem?_getD, hrow] at hs
      simp only [Option.getD_some] at hs
      have hi : i < rows.length := by
        by_contra hbig
        rw [List.getElem?_eq_none (by omega)] at hrow
        exact absurd hrow (by simp)
      have hrowmem : row ∈ rows := by
        have := List.getElem?_eq_some_iff.1 hrow
        obtain ⟨h', rfl⟩ := this
        exact List.getElem_mem h'
      exact ⟨by omega, hvalid row hrowmem (s, j) hs⟩
  refine ⟨?_, ?_, ?_⟩
  · intro v
    unfold nodeList
    simp only [List.mem_append, List.mem_range, List.mem_flatMap]
    constructor
    · rintro (hv | ⟨e, he, hv⟩)
      · exact hv
      · have : e ∈ (buildGraphFromSearch n rows th).edges := he
        obtain ⟨h1, h2⟩ := hedge e.1 e.2 (by simpa using this)
        simp only [List.mem_cons, List.mem_singleton] at hv
        rcases hv with rfl | hv
        · exact h1
        · simp only [List.mem_cons, List.not_mem_nil, or_false] at hv
          subst hv; exact h2
    · intro hv; exact Or.inl hv
  · intro a b
    unfold adjB
    simp only [Bool.or_eq_true, contains_pair_iff]
    rw [mem_buildGraphFromSearch_edges, mem_buildGraphFromSearch_edges]
  · intro a
    rw [Bool.eq_false_iff]
    intro hcon
    unfold adjB at hcon
    simp only [Bool.or_eq_true, contains_pair_iff] at hcon
    rcases hcon with h | h
    all_goals exact absurd (mem_buildGraphFromSearch_edges.1 h).1 (by omega)

/-- C6 witness: a concrete two-representative search result with one
    above-threshold pair, instantiating the postcondition. -/
theorem c6_build_graph_postcondition_witness :
    adjB (buildGraphFromSearch 2 [[(1, 0), (mkRat 9 10, 1)], [(1, 1), (mkRat 9 10, 0)]] (mkRat 4 5)) 0 1 = true ∧
    adjB (buildGraphFromSearch 2 [[(1, 0), (mkRat 9 10, 1)], [(1, 1), (mkRat 9 10, 0)]] (mkRat 4 5)) 0 0 = false := by
  have h := c6_build_graph_postcondition 2 [[(1, 0), (mkRat 9 10, 1)], [(1, 1), (mkRat 9 10, 0)]] (mkRat 4 5)
    (by decide) (by decide)
  constructor
  · exact (h.2.1 0 1).2 (Or.inl ⟨by decide, mkRat 9 10, by decide, by with_unfolding_all decide⟩)
  · exact h.2.2 0

/-- C8 counterexample: with the unit-norm star-shaped embedding matrix, k = 2
    and threshold 3/4, node 3 is the best non-self neighbor of each of the
    other three nodes, so its degree in the graph of _build_graph is 3 > k. -/
theorem c8_degree_counterexample :
    2 < gDegree (buildGraph starMatrix 2 (mkRat 3 4)) 3 := by
  with_unfolding_all decide

theorem filter_fst_rowEdges_ne {v i : Nat} (th : ℚ) (row : List (ℚ × Nat)) (h : i ≠ v) :
    (rowEdges th i row).filter (fun e => e.1 == v) = [] := by
  rw [List.filter_eq_nil_iff]
  intro e he
  have := (mem_rowEdges.1 he).1
  simp [this, h]

theorem length_rowEdges_le (th : ℚ) (i : Nat) (row : List (ℚ × Nat)) :
    (rowEdges th i row).length ≤ row.length := by
  unfold rowEdges
  rw [List.length_map]
  exact List.length_filter_le _ _

theorem upDeg_enumFrom_le (v : Nat) (th : ℚ) (k : Nat) :
    ∀ (rows : List (List (ℚ × Nat))) (s : Nat),
    (∀ row ∈ rows, row.length ≤ k) →
    ((((List.enumFrom s rows).flatMap (fun p => rowEdges th p.1 p.2)).filter
        (fun e => e.1 == v)).length ≤ if v < s then 0 else k) := by
  intro rows
  induction rows with
  | nil => intro s _; simp
  | cons row rest ih =>
    intro s hrows
    rw [List.enumFrom_cons]
    simp only [List.flatMap_cons, List.filter_append, List.length_append]
    have hrest := ih (s + 1) (fun r hr => hrows r (List.mem_cons_of_mem _ hr))
    by_cases hsv : s = v
    · subst hsv
      have hhead : ((rowEdges th s row).filter (fun e => e.1 == s)).length ≤ k :=
        le_trans (List.length_filter_le _ _)
          (le_trans (length_rowEdges_le th s row) (hrows row (List.mem_cons_self _ _)))
      rw [if_pos (Nat.lt_succ_self s)] at hrest
      rw [if_neg (by omega)]
      omega
    · rw [filter_fst_rowEdges_ne th row hsv]
      simp only [List.length_nil, Nat.zero_add]
      by_cases hlt : v < s
      · rw [if_pos hlt]
        rw [if_pos (by omega)] at hrest
        omega
      · rw [if_neg hlt]
        rw [if_neg (by omega)] at hrest
        omega

/-- C8 corrected: k bounds only the number of edges a node's own query
    contributes, i.e. every node has at most k neighbors of larger index; the
    total degree of a node can exceed k (see the counterexample: nodes that are
    best neighbors of many other queries accumulate more incident edges). -/
theorem c8_amended_updegree_le_k (X : List (List ℚ)) (k : Nat) (th : ℚ) (v : Nat) :
    upDegree (buildGraph X k th) v ≤ k := by
  unfold upDegree buildGraph buildGraphFromSearch
  simp only [List.enum_eq_enumFrom]
  have hrows : ∀ row ∈ faissSearch X k, row.length ≤ k := by
    intro row hr
    unfold faissSearch at hr
    obtain ⟨q, _, rfl⟩ := List.mem_map.1 hr
    simp
  have := upDeg_enumFrom_le v th k (faissSearch X k) 0 hrows
  simpa using this

theorem adjB_symm (g : SimGraph) (u v : Nat) : adjB g u v = adjB g v u := by
  unfold adjB
  rw [Bool.or_comm]

theorem mem_satStep {g : SimGraph} {s : List Nat} {w : Nat} :
    w ∈ satStep g s ↔ w < g.n ∧ (w ∈ s ∨ ∃ u ∈ s, adjB g u w = true) := by
  unfold satStep
  simp [List.mem_filter, List.contains, List.any_eq_true]

theorem satStep_subset_range {g : SimGraph} {s : List Nat} :
    ∀ x ∈ satStep g s, x < g.n :=
  fun _ hx => (mem_satStep.1 hx).1

theorem subset_satStep {g : SimGraph} {s : List Nat} (hs : ∀ x ∈ s, x < g.n) :
    ∀ x ∈ s, x ∈ satStep g s :=
  fun x hx => mem_satStep.2 ⟨hs x hx, Or.inl hx⟩

theorem satIter_subset_range {g : SimGraph} :
    ∀ (m : Nat) (s : List Nat), (∀ x ∈ s, x < g.n) → ∀ x ∈ satIter g m s, x < g.n := by
  intro m
  induction m with
  | zero => intro s hs; exact hs
  | succ m _ => intro s _ x hx; exact satStep_subset_range x hx

theorem subset_satIter {g : SimGraph} :
    ∀ (m : Nat) (s : List Nat), (∀ x ∈ s, x < g.n) → ∀ x ∈ s, x ∈ satIter g m s := by
  intro m
  induction m with
  | zero => intro s _ x hx; exact hx
  | succ m ih =>
    intro s hs x hx
    exact subset_satStep (satIter_subset_range m s hs) x (ih s hs x hx)

theorem satStep_ext {g : SimGraph} {s1 s2 : List Nat} (h : ∀ x, x ∈ s1 ↔ x ∈ s2) :
    satStep g s1 = satStep g s2 := by
  unfold satStep
  apply List.filter_congr
  intro v _
  have hc : s1.contains v = s2.contains v := by
    cases hc1 : s1.contains v with
    | true =>
      have : v ∈ s2 := (h v).1 (by simpa [List.contains] using hc1)
      simp [List.contains, this]
    | false =>
      cases hc2 : s2.contains v with
      | true =>
        have : v ∈ s1 := (h v).2 (by simpa [List.contains] using hc2)
        rw [← hc1]
        simp [List.contains, this]
      | false => rfl
  have ha : s1.any (fun u => adjB g u v) = s2.any (fun u => adjB g u v) := by
    cases ha1 : s1.any (fun u => adjB g u v) with
    | true =>
      obtain ⟨u, hu, hadj⟩ := List.any_eq_true.1 ha1
      have : s2.any (fun u => adjB g u v) = true := List.any_eq_true.2 ⟨u, (h u).1 hu, hadj⟩
      rw [this]
    | false =>
      cases ha2 : s2.any (fun u => adjB g u v) with
      | true =>
        obtain ⟨u, hu, hadj⟩ := List.any_eq_true.1 ha2
        have : s1.any (fun u => adjB g u v) = true := List.any_eq_true.2 ⟨u, (h u).2 hu, hadj⟩
        rw [ha1] at this
        exact absurd this (by decide)
      | false => rfl
  rw [hc, ha]

theorem length_filter_lt_of_ne {α} {l : List α} {p q : α → Bool}
    (hpq : ∀ x ∈ l, p x = true → q x = true) (hne : l.filter p ≠ l.filter q) :
    (l.filter p).length < (l.filter q).length := by
  induction l with
  | nil => simp at hne
  | cons a as ih =>
    have hrest : ∀ x ∈ as, p x = true → q x = true :=
      fun x hx => hpq x (List.mem_cons_of_mem a hx)
    cases hpa : p a with
    | true =>
      have hqa : q a = true := hpq a (List.mem_cons_self a as) hpa
      rw [List.filter_cons_of_pos hpa, List.filter_cons_of_pos hqa] at hne ⊢
      have hne' : as.filter p ≠ as.filter q := fun hcontra => hne (by rw [hcontra])
      simpa using ih hrest hne'
    | false =>
      rw [List.filter_cons_of_neg (by simp [hpa])] at hne ⊢
      cases hqa : q a with
      | true =>
        rw [List.filter_cons_of_pos hqa]
        have hle : (as.filter p).length ≤ (as.filter q).length := by
          rw [← List.countP_eq_length_filter, ← List.countP_eq_length_filter]
          exact List.countP_mono_left hrest
        simp only [List.length_cons]
        omega
      | false =>
        rw [List.filter_cons_of_neg (by simp [hqa])] at hne ⊢
        exact ih hrest hne

theorem satIter_filter_form (g : SimGraph) (p0 : Nat → Bool) :
    ∀ m, ∃ p : Nat → Bool, satIter g m ((List.range g.n).filter p0) = (List.range g.n).filter p := by
  intro m
  cases m with
  | zero => exact ⟨p0, rfl⟩
  | succ m =>
    show ∃ p, satStep g (satIter g m ((List.range g.n).filter p0)) = (List.range g.n).filter p
    exact ⟨_, rfl⟩

theorem satIter_fix_forward {g : SimGraph} {s : List Nat} (h : satStep g s = s) :
    ∀ m, satIter g m s = s := by
  intro m
  induction m with
  | zero => rfl
  | succ m ih => show satStep g (satIter g m s) = s; rw [ih, h]

theorem satStep_fix_of_iter {g : SimGraph} (p0 : Nat → Bool)
    (h0 : ((List.range g.n).filter p0).length ≥ 1) :
    satStep g (satIter g g.n ((List.range g.n).filter p0)) =
      satIter g g.n ((List.range g.n).filter p0) := by
  set s0 := (List.range g.n).filter p0 with hs0
  have hbound : ∀ m, (satIter g m s0).length ≤ g.n := by
    intro m
    obtain ⟨p, hp⟩ := satIter_filter_form g p0 m
    rw [hs0, hp]
    calc ((List.range g.n).filter p).length ≤ (List.range g.n).length :=
          List.length_filter_le _ _
      _ = g.n := List.length_range g.n
  have hgrow : ∀ m, satStep g (satIter g m s0) ≠ satIter g m s0 →
      (satIter g m s0).length + 1 ≤ (satIter g (m + 1) s0).length := by
    intro m hne
    obtain ⟨p, hp⟩ := satIter_filter_form g p0 m
    obtain ⟨q, hq⟩ := satIter_filter_form g p0 (m + 1)
    rw [← hs0] at hp hq
    have hstep : satIter g (m + 1) s0 = satStep g (satIter g m s0) := rfl
    have hsub : ∀ x ∈ (List.range g.n).filter p, x ∈ (List.range g.n).filter q := by
      intro x hx
      rw [← hp] at hx
      rw [← hq, hstep]
      have hrange : ∀ y ∈ satIter g m s0, y < g.n := by
        apply satIter_subset_range
        intro y hy
        rw [hs0] at hy
        exact List.mem_range.1 (List.mem_of_mem_filter hy)
      exact subset_satStep hrange x hx
    have hpq : ∀ x ∈ List.range g.n, p x = true → q x = true := by
      intro x hx hpx
      have := hsub x (List.mem_filter.2 ⟨hx, hpx⟩)
      exact (List.mem_filter.1 this).2
    have hne' : (List.range g.n).filter p ≠ (List.range g.n).filter q := by
      rw [← hp, ← hq, hstep]
      exact fun hcontra => hne hcontra.symm
    have := length_filter_lt_of_ne hpq hne'
    rw [← hp, ← hq] at this
    omega
  have key : ∀ m, (∃ l, l ≤ m ∧ satStep g (satIter g l s0) = satIter g l s0) ∨
      s0.length + m ≤ (satIter g m s0).length := by
    intro m
    induction m with
    | zero =>
      right
      show s0.length + 0 ≤ s0.length
      omega
    | succ m ih =>
      rcases ih with ⟨l, hl, hfix⟩ | hlen
      · exact Or.inl ⟨l, Nat.le_succ_of_le hl, hfix⟩
      · by_cases hfix : satStep g (satIter g m s0) = satIter g m s0
        · exact Or.inl ⟨m, Nat.le_succ m, hfix⟩
        · right
          have := hgrow m hfix
          omega
  rcases key g.n with ⟨l, hl, hfix⟩ | hlen
  · have hstab : ∀ m, l ≤ m → satIter g m s0 = satIter g l s0 := by
      intro m
      induction m with
      | zero =>
        intro hm
        have hl0 : l = 0 := Nat.le_zero.1 hm
        subst hl0
        rfl
      | succ m ih =>
        intro hm
        by_cases hml : l = m + 1
        · rw [hml]
        · have hlm : l ≤ m := by omega
          show satStep g (satIter g m s0) = satIter g l s0
          rw [ih hlm, hfix]
    rw [hstab g.n hl, hfix, ← hstab g.n hl]
  · exfalso
    have := hbound g.n
    omega

theorem satStep_fix_compMems {g : SimGraph} {v : Nat} (hv : v < g.n) :
    satStep g (compMems g v) = compMems g v := by
  unfold compMems
  apply satStep_fix_of_iter
  have hvmem : v ∈ (List.range g.n).filter (fun w => w == v) :=
    List.mem_filter.2 ⟨List.mem_range.2 hv, by simp⟩
  have := List.length_pos.2 (List.ne_nil_of_mem hvmem)
  omega

theorem compMems_subset_range {g : SimGraph} {v : Nat} :
    ∀ w ∈ compMems g v, w < g.n := by
  unfold compMems
  apply satIter_subset_range
  intro y hy
  exact List.mem_range.1 (List.mem_of_mem_filter hy)

theorem self_mem_compMems {g : SimGraph} {v : Nat} (hv : v < g.n) : v ∈ compMems g v := by
  unfold compMems
  apply subset_satIter
  · intro y hy
    exact List.mem_range.1 (List.mem_of_mem_filter hy)
  · exact List.mem_filter.2 ⟨List.mem_range.2 hv, by simp⟩

theorem mem_compMems_sound {g : SimGraph} {v w : Nat} (hw : w ∈ compMems g v) :
    Relation.ReflTransGen (fun a b => adjB g a b = true) v w := by
  have key : ∀ (m : Nat) (s : List Nat),
      (∀ x ∈ s, Relation.ReflTransGen (fun a b => adjB g a b = true) v x) →
      ∀ x ∈ satIter g m s, Relation.ReflTransGen (fun a b => adjB g a b = true) v x := by
    intro m
    induction m with
    | zero => intro s hs; exact hs
    | succ m ih =>
      intro s hs x hx
      have hx' := mem_satStep.1 hx
      rcases hx'.2 with hmem | ⟨u, hu, hadj⟩
      · exact ih s hs x hmem
      · exact Relation.ReflTransGen.tail (ih s hs u hu) hadj
  apply key g.n _ _ w hw
  intro x hx
  have : x = v := by simpa using (List.mem_filter.1 hx).2
  rw [this]

theorem mem_compMems_complete {g : SimGraph}
    (hwf : ∀ e ∈ g.edges, e.1 < g.n ∧ e.2 < g.n) {v w : Nat} (hv : v < g.n)
    (h : Relation.ReflTransGen (fun a b => adjB g a b = true) v w) :
    w ∈ compMems g v := by
  induction h with
  | refl => exact self_mem_compMems hv
  | tail hru hadj ih =>
    rename_i u w'
    have hw' : w' < g.n := by
      unfold adjB at hadj
      rw [Bool.or_eq_true] at hadj
      rcases hadj with hcon | hcon
      · exact (hwf _ (contains_pair_iff.1 hcon)).2
      · exact (hwf _ (contains_pair_iff.1 hcon)).1
    have : w' ∈ satStep g (compMems g v) :=
      mem_satStep.2 ⟨hw', Or.inr ⟨u, ih, hadj⟩⟩
    rwa [satStep_fix_compMems hv] at this

theorem mem_compMems_symm {g : SimGraph}
    (hwf : ∀ e ∈ g.edges, e.1 < g.n ∧ e.2 < g.n) {v w : Nat} (hv : v < g.n)
    (h : w ∈ compMems g v) : v ∈ compMems g w := by
  have hw : w < g.n := compMems_subset_range w h
  have hsym : Symmetric (fun a b => adjB g a b = true) := by
    intro a b hab
    rwa [adjB_symm]
  exact mem_compMems_complete hwf hw
    (Relation.ReflTransGen.symmetric hsym (mem_compMems_sound h))

theorem compMems_congr {g : SimGraph}
    (hwf : ∀ e ∈ g.edges, e.1 < g.n ∧ e.2 < g.n) {v w : Nat} (hv : v < g.n)
    (h : w ∈ compMems g v) : compMems g w = compMems g v := by
  have hw : w < g.n := compMems_subset_range w h
  have hvw := mem_compMems_sound h
  have hsym : Symmetric (fun a b => adjB g a b = true) := by
    intro a b hab
    rwa [adjB_symm]
  have hext : ∀ x, x ∈ compMems g w ↔ x ∈ compMems g v := by
    intro x
    constructor
    · intro hx
      exact mem_compMems_complete hwf hv (hvw.trans (mem_compMems_sound hx))
    · intro hx
      exact mem_compMems_complete hwf hw
        ((Relation.ReflTransGen.symmetric hsym hvw).trans (mem_compMems_sound hx))
  calc compMems g w = satStep g (compMems g w) := (satStep_fix_compMems hw).symm
    _ = satStep g (compMems g v) := satStep_ext hext
    _ = compMems g v := satStep_fix_compMems hv

theorem head?_filter_sorted {l : List Nat} (hs : List.Sorted (· < ·) l) {p : Nat → Bool}
    {v : Nat} :
    (l.filter p).head? = some v ↔ v ∈ l ∧ p v = true ∧ ∀ w ∈ l, p w = true → v ≤ w := by
  induction l with
  | nil => simp
  | cons a as ih =>
    have has : List.Sorted (· < ·) as := hs.of_cons
    have hlt : ∀ w ∈ as, a < w := fun w hw => (List.sorted_cons.1 hs).1 w hw
    cases hpa : p a with
    | true =>
      rw [List.filter_cons_of_pos hpa]
      simp only [List.head?_cons, Option.some.injEq]
      constructor
      · rintro rfl
        refine ⟨List.mem_cons_self _ _, hpa, ?_⟩
        intro w hw _
        rcases List.mem_cons.1 hw with rfl | hw'
        · exact le_refl _
        · exact Nat.le_of_lt (hlt w hw')
      · rintro ⟨hv, _, hmin⟩
        rcases List.mem_cons.1 hv with rfl | hv'
        · rfl
        · have h1 := hmin a (List.mem_cons_self _ _) hpa
          have h2 := hlt v hv'
          omega
    | false =>
      rw [List.filter_cons_of_neg (by simp [hpa])]
      rw [ih has]
      constructor
      · rintro ⟨hv, hpv, hmin⟩
        refine ⟨List.mem_cons_of_mem _ hv, hpv, ?_⟩
        intro w hw hpw
        rcases List.mem_cons.1 hw with rfl | hw'
        · rw [hpw] at hpa; exact absurd hpa (by simp)
        · exact hmin w hw' hpw
      · rintro ⟨hv, hpv, hmin⟩
        rcases List.mem_cons.1 hv with rfl | hv'
        · rw [hpv] at hpa; exact absurd hpa (by simp)
        · exact ⟨hv', hpv, fun w hw hpw => hmin w (List.mem_cons_of_mem _ hw) hpw⟩

theorem compMems_filter_form {g : SimGraph} (v : Nat) :
    ∃ p : Nat → Bool, compMems g v = (List.range g.n).filter p := by
  unfold compMems
  exact satIter_filter_form g _ g.n

theorem head?_compMems_iff {g : SimGraph} {v m : Nat} :
    (compMems g v).head? = some m ↔
      m ∈ compMems g v ∧ ∀ w ∈ compMems g v, m ≤ w := by
  obtain ⟨p, hp⟩ := compMems_filter_form (g := g) v
  rw [hp]
  rw [head?_filter_sorted (List.sorted_lt_range g.n)]
  constructor
  · rintro ⟨hm, hpm, hmin⟩
    refine ⟨List.mem_filter.2 ⟨hm, hpm⟩, ?_⟩
    intro w hw
    exact hmin w (List.mem_of_mem_filter hw) (List.mem_filter.1 hw).2
  · rintro ⟨hm, hmin⟩
    refine ⟨List.mem_of_mem_filter hm, (List.mem_filter.1 hm).2, ?_⟩
    intro w hw hpw
    exact hmin w (List.mem_filter.2 ⟨hw, hpw⟩)

theorem isLeader_iff {g : SimGraph} {v : Nat} (hv : v < g.n) :
    isLeader g v = true ↔ ∀ w ∈ compMems g v, v ≤ w := by
  unfold isLeader
  rw [beq_iff_eq]
  rw [head?_compMems_iff]
  constructor
  · rintro ⟨_, hmin⟩; exact hmin
  · intro hmin; exact ⟨self_mem_compMems hv, hmin⟩

theorem exists_leader {g : SimGraph}
    (hwf : ∀ e ∈ g.edges, e.1 < g.n ∧ e.2 < g.n) {v : Nat} (hv : v < g.n) :
    ∃ m, m ∈ compMems g v ∧ isLeader g m = true ∧ compMems g m = compMems g v := by
  have hne : compMems g v ≠ [] := List.ne_nil_of_mem (self_mem_compMems hv)
  cases hm : (compMems g v).head? with
  | none => exact absurd (List.head?_eq_none_iff.1 hm) hne
  | some m =>
  have hchar := head?_compMems_iff.1 hm
  have hmem : m ∈ compMems g v := hchar.1
  have hcongr : compMems g m = compMems g v := compMems_congr hwf hv hmem
  refine ⟨m, hmem, ?_, hcongr⟩
  unfold isLeader
  rw [beq_iff_eq, hcongr, hm]

theorem mem_gComponents_iff {g : SimGraph} {c : List Nat} :
    c ∈ gComponents g ↔ ∃ v, v < g.n ∧ isLeader g v = true ∧ c = compMems g v := by
  unfold gComponents
  rw [List.mem_filterMap]
  constructor
  · rintro ⟨v, hv, hc⟩
    by_cases hl : isLeader g v = true
    · rw [if_pos hl] at hc
      exact ⟨v, List.mem_range.1 hv, hl, (Option.some.injEq _ _ ▸ hc).symm⟩
    · rw [if_neg hl] at hc
      exact absurd hc (by simp)
  · rintro ⟨v, hv, hl, rfl⟩
    exact ⟨v, List.mem_range.2 hv, by rw [if_pos hl]⟩

theorem gComponents_nodup (g : SimGraph) : (gComponents g).Nodup := by
  unfold gComponents
  apply List.Nodup.filterMap
  · intro a a' b hb hb'
    by_cases ha : isLeader g a = true
    · rw [if_pos ha] at hb
      by_cases ha' : isLeader g a' = true
      · rw [if_pos ha'] at hb'
        have hba : compMems g a = b := by simpa using hb
        have hba' : compMems g a' = b := by simpa using hb'
        unfold isLeader at ha ha'
        rw [beq_iff_eq] at ha ha'
        rw [hba] at ha
        rw [hba'] at ha'
        have := ha.symm.trans ha'
        simpa using this
      · rw [if_neg ha'] at hb'; exact absurd hb' (by simp)
    · rw [if_neg ha] at hb; exact absurd hb (by simp)
  · exact List.nodup_range g.n

theorem gComponents_cover {g : SimGraph}
    (hwf : ∀ e ∈ g.edges, e.1 < g.n ∧ e.2 < g.n) {v : Nat} (hv : v < g.n) :
    ∃ c ∈ gComponents g, v ∈ c := by
  obtain ⟨m, hmem, hlead, hcongr⟩ := exists_leader hwf hv
  have hm : m < g.n := compMems_subset_range m hmem
  refine ⟨compMems g m, mem_gComponents_iff.2 ⟨m, hm, hlead, rfl⟩, ?_⟩
  rw [hcongr]
  exact self_mem_compMems hv

theorem gComponents_mem_eq {g : SimGraph}
    (hwf : ∀ e ∈ g.edges, e.1 < g.n ∧ e.2 < g.n) {c1 c2 : List Nat}
    (h1 : c1 ∈ gComponents g) (h2 : c2 ∈ gComponents g) {x : Nat}
    (hx1 : x ∈ c1) (hx2 : x ∈ c2) : c1 = c2 := by
  obtain ⟨v1, hv1, hl1, rfl⟩ := mem_gComponents_iff.1 h1
  obtain ⟨v2, hv2, hl2, rfl⟩ := mem_gComponents_iff.1 h2
  have hxn : x < g.n := compMems_subset_range x hx1
  have e1 : compMems g x = compMems g v1 := compMems_congr hwf hv1 hx1
  have e2 : compMems g x = compMems g v2 := compMems_congr hwf hv2 hx2
  rw [← e1, e2]

theorem gComponents_mem_subset_range {g : SimGraph} {c : List Nat}
    (hc : c ∈ gComponents g) : ∀ x ∈ c, x < g.n := by
  obtain ⟨v, _, _, rfl⟩ := mem_gComponents_iff.1 hc
  exact compMems_subset_range

theorem length_gComponents_eq_countP (g : SimGraph) :
    (gComponents g).length = (List.range g.n).countP (fun v => isLeader g v) := by
  unfold gComponents
  rw [List.length_filterMap_eq_countP]
  apply List.countP_congr
  intro v _
  by_cases hl : isLeader g v = true
  · simp [hl]
  · simp [hl]

theorem insortRank_perm (x : ℚ × Nat) (l : List (ℚ × Nat)) :
    (insortRank x l).Perm (x :: l) := by
  induction l with
  | nil => simp [insortRank]
  | cons y ys ih =>
    unfold insortRank
    by_cases hr : rankBefore x y = true
    · rw [if_pos hr]
    · rw [if_neg hr]
      exact (List.Perm.cons y ih).trans (List.Perm.swap x y ys)

theorem sortRank_perm (l : List (ℚ × Nat)) : (sortRank l).Perm l := by
  induction l with
  | nil => simp [sortRank]
  | cons y ys ih =>
    unfold sortRank
    exact (insortRank_perm y _).trans (List.Perm.cons y ih)

theorem mem_scoreRow {X : List (List ℚ)} {q : List ℚ} {sj : ℚ × Nat}
    (h : sj ∈ scoreRow X q) : sj.2 < X.length := by
  unfold scoreRow at h
  obtain ⟨p, hp, hsj⟩ := List.mem_map.1 h
  have := List.mem_enum_iff_get?.1 hp
  have hlt : p.1 < (X.map (dotQ q)).length := by
    by_contra hbig
    rw [List.get?_eq_getElem?, List.getElem?_eq_none (by omega)] at this
    exact absurd this (by simp)
  rw [← hsj]
  simpa using hlt

theorem mem_faissSearch_row {X : List (List ℚ)} {k : Nat} {row : List (ℚ × Nat)}
    (hrow : row ∈ faissSearch X k) {sj : ℚ × Nat} (h : sj ∈ row) : sj.2 < X.length := by
  unfold faissSearch at hrow
  obtain ⟨q, _, rfl⟩ := List.mem_map.1 hrow
  have h1 : sj ∈ sortRank (scoreRow X q) := List.take_subset _ _ h
  have h2 : sj ∈ scoreRow X q := (sortRank_perm (scoreRow X q)).mem_iff.1 h1
  exact mem_scoreRow h2

theorem buildGraph_n (X : List (List ℚ)) (k : Nat) (th : ℚ) :
    (buildGraph X k th).n = X.length := rfl

theorem buildGraph_wf (X : List (List ℚ)) (k : Nat) (th : ℚ) :
    ∀ e ∈ (buildGraph X k th).edges, e.1 < (buildGraph X k th).n ∧ e.2 < (buildGraph X k th).n := by
  intro e he
  rw [buildGraph_n]
  have he' : (e.1, e.2) ∈ (buildGraphFromSearch X.length (faissSearch X k) th).edges := by
    rwa [show ((e.1, e.2) : Nat × Nat) = e from rfl]
  obtain ⟨hlt, s, hs, _⟩ := mem_buildGraphFromSearch_edges.1 he'
  cases hrow : (faissSearch X k)[e.1]? with
  | none =>
    rw [List.getD_eq_getElem?_getD, hrow] at hs
    simp at hs
  | some row =>
    rw [List.getD_eq_getElem?_getD, hrow] at hs
    simp only [Option.getD_some] at hs
    obtain ⟨hlen, rfl⟩ := List.getElem?_eq_some_iff.1 hrow
    have hrowmem : (faissSearch X k)[e.1] ∈ faissSearch X k := List.getElem_mem hlen
    have h2 := mem_faissSearch_row hrowmem hs
    have h1 : e.1 < X.length := by
      have : (faissSearch X k).length = X.length := by
        unfold faissSearch; simp
      omega
    exact ⟨h1, by simpa using h2⟩

theorem compMems_mono {g1 g2 : SimGraph} (hn : g1.n = g2.n)
    (hsub : ∀ e ∈ g2.edges, e ∈ g1.edges)
    (hwf1 : ∀ e ∈ g1.edges, e.1 < g1.n ∧ e.2 < g1.n) {v : Nat} (hv : v < g2.n) :
    ∀ w ∈ compMems g2 v, w ∈ compMems g1 v := by
  intro w hw
  have hrtg2 := mem_compMems_sound hw
  have hrtg1 : Relation.ReflTransGen (fun a b => adjB g1 a b = true) v w := by
    refine Relation.ReflTransGen.mono ?_ hrtg2
    intro a b hab
    unfold adjB at hab ⊢
    rw [Bool.or_eq_true] at hab ⊢
    rcases hab with h | h
    · exact Or.inl (contains_pair_iff.2 (hsub _ (contains_pair_iff.1 h)))
    · exact Or.inr (contains_pair_iff.2 (hsub _ (contains_pair_iff.1 h)))
  exact mem_compMems_complete hwf1 (by omega) hrtg1

theorem isLeader_mono {g1 g2 : SimGraph} (hn : g1.n = g2.n)
    (hsub : ∀ e ∈ g2.edges, e ∈ g1.edges)
    (hwf1 : ∀ e ∈ g1.edges, e.1 < g1.n ∧ e.2 < g1.n) {v : Nat} (hv : v < g2.n)
    (h : isLeader g1 v = true) : isLeader g2 v = true := by
  rw [isLeader_iff hv]
  rw [isLeader_iff (by omega : v < g1.n)] at h
  intro w hw
  exact h w (compMems_mono hn hsub hwf1 hv w hw)

theorem gComponents_count_mono {g1 g2 : SimGraph} (hn : g1.n = g2.n)
    (hsub : ∀ e ∈ g2.edges, e ∈ g1.edges)
    (hwf1 : ∀ e ∈ g1.edges, e.1 < g1.n ∧ e.2 < g1.n) :
    (gComponents g1).length ≤ (gComponents g2).length := by
  rw [length_gComponents_eq_countP, length_gComponents_eq_countP, hn]
  apply List.countP_mono_left
  intro v hv
  exact isLeader_mono hn hsub hwf1 (List.mem_range.1 hv)

theorem mem_bucketOf {step2 : List Name} {key nm : Name} :
    nm ∈ bucketOf step2 key ↔ nm ∈ step2 ∧ canonicalise nm = key := by
  unfold bucketOf
  rw [List.mem_filter]
  simp

theorem bucketKeys_mem_iff {step2 : List Name} {key : Name} :
    key ∈ bucketKeys step2 ↔ key ∈ step2.map canonicalise := mem_firstUniq _ _

theorem canon_repOf {step2 : List Name} {key : Name} (h : key ∈ bucketKeys step2) :
    canonicalise (repOf step2 key) = key ∧ repOf step2 key ∈ step2 := by
  have hmap := bucketKeys_mem_iff.1 h
  obtain ⟨nm0, hnm0, hc0⟩ := List.mem_map.1 hmap
  have hsome : (step2.find? (fun nm => canonicalise nm == key)).isSome :=
    List.find?_isSome.2 ⟨nm0, hnm0, by simp [hc0]⟩
  cases hfind : step2.find? (fun nm => canonicalise nm == key) with
  | none => rw [hfind] at hsome; simp at hsome
  | some r =>
    have hr := List.find?_some hfind
    have hrmem := List.mem_of_find?_eq_some hfind
    unfold repOf
    rw [hfind]
    exact ⟨by simpa using hr, hrmem⟩

theorem repsList_getD {step2 : List Name} {j : Nat}
    (hj : j < (bucketKeys step2).length) :
    (repsList step2).getD j [] = repOf step2 ((bucketKeys step2).get ⟨j, hj⟩) := by
  unfold repsList
  rw [List.getD_eq_getElem?_getD]
  rw [List.getElem?_map]
  rw [List.getElem?_eq_getElem hj]
  simp [List.get_eq_getElem]

theorem clustersOfComps_length (g : SimGraph) (reps step2 : List Name) :
    (clustersOfComps g reps step2).length = (gComponents g).length := by
  unfold clustersOfComps
  rw [List.length_map]

theorem clustersOfComps_get (g : SimGraph) (reps step2 : List Name) {i : Nat}
    (hi : i < (clustersOfComps g reps step2).length) :
    (clustersOfComps g reps step2).get ⟨i, hi⟩ =
      ((gComponents g).get ⟨i, by rwa [clustersOfComps_length] at hi⟩).flatMap
        (fun repIdx => bucketOf step2 (canonicalise (reps.getD repIdx []))) := by
  unfold clustersOfComps
  simp [List.get_eq_getElem]

theorem clustersOfComps_cover {g : SimGraph} {step2 : List Name}
    (hwf : ∀ e ∈ g.edges, e.1 < g.n ∧ e.2 < g.n)
    (hn : g.n = (bucketKeys step2).length)
    {key : Name} (hkey : key ∈ bucketKeys step2) :
    ∃ i, ∃ hi : i < (clustersOfComps g (repsList step2) step2).length,
      ∀ x ∈ bucketOf step2 key,
        x ∈ (clustersOfComps g (repsList step2) step2).get ⟨i, hi⟩ := by
  obtain ⟨⟨j, hj⟩, hget⟩ := List.mem_iff_get.1 hkey
  have hjn : j < g.n := by omega
  obtain ⟨c, hc, hjc⟩ := gComponents_cover hwf hjn
  obtain ⟨⟨i, hi⟩, hcget⟩ := List.mem_iff_get.1 hc
  have hlen : i < (clustersOfComps g (repsList step2) step2).length := by
    rw [clustersOfComps_length]; exact hi
  refine ⟨i, hlen, ?_⟩
  intro x hx
  rw [clustersOfComps_get]
  rw [List.mem_flatMap]
  refine ⟨j, ?_, ?_⟩
  · have : (gComponents g).get ⟨i, by rwa [clustersOfComps_length] at hlen⟩ = c := hcget
    rw [this]
    exact hjc
  · rw [repsList_getD hj, hget]
    rw [(canon_repOf hkey).1]
    exact hx

theorem clustersOfComps_unique {g : SimGraph} {step2 : List Name}
    (hwf : ∀ e ∈ g.edges, e.1 < g.n ∧ e.2 < g.n)
    (hn : g.n = (bucketKeys step2).length)
    {nm : Name} {i1 i2 : Nat}
    (h1 : i1 < (clustersOfComps g (repsList step2) step2).length)
    (h2 : i2 < (clustersOfComps g (repsList step2) step2).length)
    (hm1 : nm ∈ (clustersOfComps g (repsList step2) step2).get ⟨i1, h1⟩)
    (hm2 : nm ∈ (clustersOfComps g (repsList step2) step2).get ⟨i2, h2⟩) :
    i1 = i2 := by
  rw [clustersOfComps_get] at hm1 hm2
  obtain ⟨r1, hr1c, hr1b⟩ := List.mem_flatMap.1 hm1
  obtain ⟨r2, hr2c, hr2b⟩ := List.mem_flatMap.1 hm2
  have hic1 : i1 < (gComponents g).length := by rwa [clustersOfComps_length] at h1
  have hic2 : i2 < (gComponents g).length := by rwa [clustersOfComps_length] at h2
  have hc1mem : (gComponents g).get ⟨i1, hic1⟩ ∈ gComponents g := List.get_mem _ _ _
  have hc2mem : (gComponents g).get ⟨i2, hic2⟩ ∈ gComponents g := List.get_mem _ _ _
  have hr1n : r1 < g.n := gComponents_mem_subset_range hc1mem r1 hr1c
  have hr2n : r2 < g.n := gComponents_mem_subset_range hc2mem r2 hr2c
  have hr1k : r1 < (bucketKeys step2).length := by omega
  have hr2k : r2 < (bucketKeys step2).length := by omega
  have hkey1 : canonicalise nm = (bucketKeys step2).get ⟨r1, hr1k⟩ := by
    rw [repsList_getD hr1k] at hr1b
    have := (mem_bucketOf.1 hr1b).2
    rw [this]
    exact (canon_repOf (List.get_mem _ _ _)).1
  have hkey2 : canonicalise nm = (bucketKeys step2).get ⟨r2, hr2k⟩ := by
    rw [repsList_getD hr2k] at hr2b
    have := (mem_bucketOf.1 hr2b).2
    rw [this]
    exact (canon_repOf (List.get_mem _ _ _)).1
  have hgeq : (bucketKeys step2).get ⟨r1, hr1k⟩ = (bucketKeys step2).get ⟨r2, hr2k⟩ := by
    rw [← hkey1, ← hkey2]
  have hreq : r1 = r2 := by
    have := (firstUniq_nodup (step2.map canonicalise)).get_inj_iff.1 hgeq
    simpa using this
  subst hreq
  have hceq : (gComponents g).get ⟨i1, hic1⟩ = (gComponents g).get ⟨i2, hic2⟩ :=
    gComponents_mem_eq hwf hc1mem hc2mem hr1c hr2c
  have := (gComponents_nodup g).get_inj_iff.1 hceq
  simpa using this

theorem dlookup_dinsert_self (m : List (Name × Nat)) (key : Name) (v : Nat) :
    dlookup (dinsert m key v) key = some v := by
  unfold dlookup dinsert
  rw [List.find?_cons]
  simp

theorem dlookup_filter_ne {m : List (Name × Nat)} {key k' : Name} (h : k' ≠ key) :
    dlookup (m.filter (fun p => !(p.1 == key))) k' = dlookup m k' := by
  induction m with
  | nil => rfl
  | cons a as ih =>
    by_cases hak : a.1 = key
    · rw [List.filter_cons_of_neg (by simp [hak])]
      rw [ih]
      unfold dlookup
      rw [List.find?_cons]
      have hne : (a.1 == k') = false := by
        rw [beq_eq_false_iff_ne]
        rw [hak]
        exact fun hc => h hc.symm
      rw [hne]
    · rw [List.filter_cons_of_pos (by simp [hak])]
      unfold dlookup
      rw [List.find?_cons, List.find?_cons]
      cases hak' : (a.1 == k') with
      | true => rfl
      | false => exact ih

theorem dlookup_dinsert_ne {m : List (Name × Nat)} {key : Name} {v : Nat} {k' : Name}
    (h : k' ≠ key) : dlookup (dinsert m key v) k' = dlookup m k' := by
  unfold dinsert
  unfold dlookup
  rw [List.find?_cons]
  have hne : ((key, v).1 == k') = false := by
    rw [beq_eq_false_iff_ne]
    exact fun hc => h hc.symm
  rw [hne]
  exact dlookup_filter_ne h

theorem dinsert_entries {m : List (Name × Nat)} {key : Name} {v : Nat} :
    ∀ p ∈ dinsert m key v, p = (key, v) ∨ p ∈ m := by
  intro p hp
  unfold dinsert at hp
  rcases List.mem_cons.1 hp with rfl | hp'
  · exact Or.inl rfl
  · exact Or.inr (List.mem_of_mem_filter hp')

theorem foldl_dinsert_not_mem {cid : Nat} :
    ∀ (cl : List Name) (m : List (Name × Nat)) (nm : Name), nm ∉ cl →
    dlookup (cl.foldl (fun m x => dinsert m x cid) m) nm = dlookup m nm := by
  intro cl
  induction cl with
  | nil => intro m nm _; rfl
  | cons x xs ih =>
    intro m nm hnm
    have hx : nm ≠ x := fun hc => hnm (hc ▸ List.mem_cons_self x xs)
    have hxs : nm ∉ xs := fun hc => hnm (List.mem_cons_of_mem x hc)
    show dlookup (xs.foldl (fun m x => dinsert m x cid) (dinsert m x cid)) nm = dlookup m nm
    rw [ih (dinsert m x cid) nm hxs]
    exact dlookup_dinsert_ne hx

theorem foldl_dinsert_mem {cid : Nat} :
    ∀ (cl : List Name) (m : List (Name × Nat)) (nm : Name), nm ∈ cl →
    dlookup (cl.foldl (fun m x => dinsert m x cid) m) nm = some cid := by
  intro cl
  induction cl with
  | nil => intro m nm h; simp at h
  | cons x xs ih =>
    intro m nm hnm
    show dlookup (xs.foldl (fun m x => dinsert m x cid) (dinsert m x cid)) nm = some cid
    by_cases hxs : nm ∈ xs
    · exact ih _ nm hxs
    · have hx : nm = x := by
        rcases List.mem_cons.1 hnm with h | h
        · exact h
        · exact absurd h hxs
      rw [foldl_dinsert_not_mem xs _ nm hxs, hx]
      exact dlookup_dinsert_self _ _ _

theorem foldl_assign_not_mem {nm : Name} :
    ∀ (L : List (Nat × List Name)) (m0 : List (Name × Nat)),
    (∀ q ∈ L, nm ∉ q.2) →
    dlookup (L.foldl (fun m p => p.2.foldl (fun m x => dinsert m x p.1) m) m0) nm =
      dlookup m0 nm := by
  intro L
  induction L with
  | nil => intro m0 _; rfl
  | cons q L ih =>
    intro m0 hnone
    show dlookup (L.foldl _ (q.2.foldl (fun m x => dinsert m x q.1) m0)) nm = dlookup m0 nm
    rw [ih _ (fun q' hq' => hnone q' (List.mem_cons_of_mem q hq'))]
    exact foldl_dinsert_not_mem q.2 m0 nm (hnone q (List.mem_cons_self q L))

theorem foldl_assign_lookup {nm : Name} {i : Nat} :
    ∀ (L : List (Nat × List Name)) (m0 : List (Name × Nat)),
    (∀ q ∈ L, nm ∈ q.2 → q.1 = i) → (∃ q ∈ L, nm ∈ q.2) →
    dlookup (L.foldl (fun m p => p.2.foldl (fun m x => dinsert m x p.1) m) m0) nm =
      some i := by
  intro L
  induction L with
  | nil => rintro m0 _ ⟨q, hq, _⟩; simp at hq
  | cons q L ih =>
    intro m0 hall hex
    show dlookup (L.foldl _ (q.2.foldl (fun m x => dinsert m x q.1) m0)) nm = some i
    by_cases hLex : ∃ q' ∈ L, nm ∈ q'.2
    · exact ih _ (fun q' hq' => hall q' (List.mem_cons_of_mem q hq')) hLex
    · have hq : nm ∈ q.2 := by
        obtain ⟨q', hq', hnm'⟩ := hex
        rcases List.mem_cons.1 hq' with rfl | hmem
        · exact hnm'
        · exact absurd ⟨q', hmem, hnm'⟩ hLex
      have hqi : q.1 = i := hall q (List.mem_cons_self q L) hq
      rw [foldl_assign_not_mem L _ (by
        intro q' hq' hnm'
        exact hLex ⟨q', hq', hnm'⟩)]
      rw [foldl_dinsert_mem q.2 m0 nm hq, hqi]

theorem foldl_dinsert_val_lt {cid B : Nat} (hcid : cid < B) :
    ∀ (cl : List Name) (m : List (Name × Nat)),
    (∀ p ∈ m, p.2 < B) →
    ∀ p ∈ cl.foldl (fun m x => dinsert m x cid) m, p.2 < B := by
  intro cl
  induction cl with
  | nil => intro m hm; exact hm
  | cons x xs ih =>
    intro m hm
    show ∀ p ∈ xs.foldl (fun m x => dinsert m x cid) (dinsert m x cid), p.2 < B
    apply ih
    intro p hp
    rcases dinsert_entries p hp with rfl | hp'
    · exact hcid
    · exact hm p hp'

theorem foldl_assign_val_lt {B : Nat} :
    ∀ (L : List (Nat × List Name)) (m0 : List (Name × Nat)),
    (∀ q ∈ L, q.1 < B) → (∀ p ∈ m0, p.2 < B) →
    ∀ p ∈ L.foldl (fun m p => p.2.foldl (fun m x => dinsert m x p.1) m) m0, p.2 < B := by
  intro L
  induction L with
  | nil => intro m0 _ hm0; exact hm0
  | cons q L ih =>
    intro m0 hq hm0
    show ∀ p ∈ L.foldl _ (q.2.foldl (fun m x => dinsert m x q.1) m0), p.2 < B
    apply ih
    · intro q' hq'; exact hq q' (List.mem_cons_of_mem q hq')
    · exact foldl_dinsert_val_lt (hq q (List.mem_cons_self q L)) q.2 m0 hm0

theorem mem_enum_iff {α} {l : List α} {q : Nat × α} :
    q ∈ l.enum ↔ ∃ h : q.1 < l.length, l.get ⟨q.1, h⟩ = q.2 := by
  rw [List.mem_enum_iff_get?]
  constructor
  · intro h
    have hlt : q.1 < l.length := by
      by_contra hbig
      rw [List.get?_eq_getElem?, List.getElem?_eq_none (by omega)] at h
      exact absurd h (by simp)
    refine ⟨hlt, ?_⟩
    rw [List.get?_eq_getElem?, List.getElem?_eq_getElem hlt] at h
    simpa [List.get_eq_getElem] using h
  · rintro ⟨h, hget⟩
    rw [List.get?_eq_getElem?, List.getElem?_eq_getElem h]
    simp [← hget, List.get_eq_getElem]

theorem assignMembers_lookup {clusters : List (List Name)} {nm : Name} {i : Nat}
    (hi : i < clusters.length) (hmem : nm ∈ clusters.get ⟨i, hi⟩)
    (huniq : ∀ j, ∀ hj : j < clusters.length, nm ∈ clusters.get ⟨j, hj⟩ → j = i) :
    dlookup (assignMembers clusters) nm = some i := by
  unfold assignMembers
  apply foldl_assign_lookup
  · intro q hq hnm
    obtain ⟨hlt, hget⟩ := mem_enum_iff.1 hq
    exact huniq q.1 hlt (by rwa [hget])
  · refine ⟨(i, clusters.get ⟨i, hi⟩), mem_enum_iff.2 ⟨hi, rfl⟩, hmem⟩

theorem assignMembers_val_lt {clusters : List (List Name)} :
    ∀ p ∈ assignMembers clusters, p.2 < clusters.length := by
  unfold assignMembers
  apply foldl_assign_val_lt
  · intro q hq
    exact (mem_enum_iff.1 hq).1
  · intro p hp; simp at hp

theorem findCluster_isSome {clusters : List (List Name)} {raw expanded : Name}
    (h : ∃ cl ∈ clusters, expanded ∈ cl) :
    ∃ cid, findCluster clusters raw expanded = some cid := by
  obtain ⟨cl, hcl, hmem⟩ := h
  obtain ⟨⟨j, hj⟩, hget⟩ := List.mem_iff_get.1 hcl
  have hsome : (clusters.enum.find?
      (fun p => p.2.contains raw || p.2.contains expanded)).isSome := by
    rw [List.find?_isSome]
    refine ⟨(j, clusters.get ⟨j, hj⟩), mem_enum_iff.2 ⟨hj, rfl⟩, ?_⟩
    simp only [Bool.or_eq_true, List.contains]
    right
    rw [hget]
    simpa using hmem
  obtain ⟨q, hq⟩ := Option.isSome_iff_exists.1 hsome
  refine ⟨q.1, ?_⟩
  unfold findCluster
  rw [hq]
  rfl

theorem findCluster_lt {clusters : List (List Name)} {raw expanded : Name} {cid : Nat}
    (h : findCluster clusters raw expanded = some cid) : cid < clusters.length := by
  unfold findCluster at h
  cases hfind : clusters.enum.find? (fun p => p.2.contains raw || p.2.contains expanded) with
  | none => rw [hfind] at h; exact absurd h (by simp)
  | some q =>
    rw [hfind] at h
    have hcid : q.1 = cid := by simpa using h
    rw [← hcid]
    exact (mem_enum_iff.1 (List.mem_of_find?_eq_some hfind)).1

theorem reconcileStep_eq_skip {tm : List (Name × Name)} {step1 : List Name}
    {st : ResolveState} {raw : Name} {c : Nat} (h : dlookup st.name2cid raw = some c) :
    reconcileStep tm step1 st raw = st := by
  unfold reconcileStep
  simp only [h]

theorem reconcileStep_eq_found {tm : List (Name × Name)} {step1 : List Name}
    {st : ResolveState} {raw : Name} {cid : Nat}
    (h0 : dlookup st.name2cid raw = none)
    (h : findCluster st.clusters raw (expandName tm step1 raw) = some cid) :
    reconcileStep tm step1 st raw = { st with name2cid := dinsert st.name2cid raw cid } := by
  unfold reconcileStep
  simp only [h0, h]

theorem reconcileStep_eq_append {tm : List (Name × Name)} {step1 : List Name}
    {st : ResolveState} {raw : Name}
    (h0 : dlookup st.name2cid raw = none)
    (h : findCluster st.clusters raw (expandName tm step1 raw) = none) :
    reconcileStep tm step1 st raw =
      { clusters := st.clusters ++ [[raw]]
        name2cid := dinsert st.name2cid raw st.clusters.length
        representatives := st.representatives ++ [raw] } := by
  unfold reconcileStep
  simp only [h0, h]

theorem reconcileStep_clusters_stable {tm : List (Name × Name)} {step1 : List Name}
    {st : ResolveState} {raw : Name}
    (hfound : ∃ cl ∈ st.clusters, expandName tm step1 raw ∈ cl) :
    (reconcileStep tm step1 st raw).clusters = st.clusters ∧
    (reconcileStep tm step1 st raw).representatives = st.representatives := by
  cases hl : dlookup st.name2cid raw with
  | some c => rw [reconcileStep_eq_skip hl]; exact ⟨rfl, rfl⟩
  | none =>
    obtain ⟨cid, hcid⟩ := @findCluster_isSome st.clusters raw (expandName tm step1 raw) hfound
    rw [reconcileStep_eq_found hl hcid]
    exact ⟨rfl, rfl⟩

theorem reconcileStep_preserves_lookup {tm : List (Name × Name)} {step1 : List Name}
    {st : ResolveState} {raw nm : Name} {c : Nat}
    (h : dlookup st.name2cid nm = some c) :
    dlookup (reconcileStep tm step1 st raw).name2cid nm = some c := by
  cases hl : dlookup st.name2cid raw with
  | some _ => rw [reconcileStep_eq_skip hl]; exact h
  | none =>
    have hne : nm ≠ raw := by
      intro hc
      rw [hc] at h
      rw [h] at hl
      exact absurd hl (by simp)
    cases hf : findCluster st.clusters raw (expandName tm step1 raw) with
    | some cid =>
      rw [reconcileStep_eq_found hl hf]
      show dlookup (dinsert st.name2cid raw cid) nm = some c
      rw [dlookup_dinsert_ne hne]
      exact h
    | none =>
      rw [reconcileStep_eq_append hl hf]
      show dlookup (dinsert st.name2cid raw st.clusters.length) nm = some c
      rw [dlookup_dinsert_ne hne]
      exact h

theorem reconcileStep_self_lookup (tm : List (Name × Name)) (step1 : List Name)
    (st : ResolveState) (raw : Name) :
    ∃ c, dlookup (reconcileStep tm step1 st raw).name2cid raw = some c := by
  cases hl : dlookup st.name2cid raw with
  | some c => rw [reconcileStep_eq_skip hl]; exact ⟨c, hl⟩
  | none =>
    cases hf : findCluster st.clusters raw (expandName tm step1 raw) with
    | some cid =>
      rw [reconcileStep_eq_found hl hf]
      exact ⟨cid, dlookup_dinsert_self _ _ _⟩
    | none =>
      rw [reconcileStep_eq_append hl hf]
      exact ⟨st.clusters.length, dlookup_dinsert_self _ _ _⟩

theorem reconcile_fold_preserves_lookup {tm : List (Name × Name)} {step1 : List Name} :
    ∀ (raws : List Name) (st : ResolveState) (nm : Name) (c : Nat),
    dlookup st.name2cid nm = some c →
    dlookup ((raws.foldl (reconcileStep tm step1) st).name2cid) nm = some c := by
  intro raws
  induction raws with
  | nil => intro st nm c h; exact h
  | cons r rs ih =>
    intro st nm c h
    exact ih _ nm c (reconcileStep_preserves_lookup h)

theorem reconcile_fold_total {tm : List (Name × Name)} {step1 : List Name} :
    ∀ (raws : List Name) (st : ResolveState) (raw : Name), raw ∈ raws →
    ∃ c, dlookup ((raws.foldl (reconcileStep tm step1) st).name2cid) raw = some c := by
  intro raws
  induction raws with
  | nil => intro st raw h; simp at h
  | cons r rs ih =>
    intro st raw hmem
    by_cases hr : raw ∈ rs
    · exact ih _ raw hr
    · have : raw = r := by
        rcases List.mem_cons.1 hmem with h | h
        · exact h
        · exact absurd h hr
      subst this
      obtain ⟨c, hc⟩ := reconcileStep_self_lookup tm step1 st raw
      exact ⟨c, reconcile_fold_preserves_lookup rs _ raw c hc⟩

theorem reconcile_fold_clusters_stable {tm : List (Name × Name)} {step1 : List Name} :
    ∀ (raws : List Name) (st : ResolveState),
    (∀ raw ∈ raws, ∃ cl ∈ st.clusters, expandName tm step1 raw ∈ cl) →
    (raws.foldl (reconcileStep tm step1) st).clusters = st.clusters ∧
    (raws.foldl (reconcileStep tm step1) st).representatives = st.representatives := by
  intro raws
  induction raws with
  | nil => intro st _; exact ⟨rfl, rfl⟩
  | cons r rs ih =>
    intro st hcov
    have hr := hcov r (List.mem_cons_self r rs)
    have hstable := reconcileStep_clusters_stable hr
    have hrest := ih (reconcileStep tm step1 st r) (by
      intro raw hraw
      obtain ⟨cl, hcl, hmem⟩ := hcov raw (List.mem_cons_of_mem r hraw)
      refine ⟨cl, ?_, hmem⟩
      rw [hstable.1]
      exact hcl)
    refine ⟨?_, ?_⟩
    · show (rs.foldl (reconcileStep tm step1) (reconcileStep tm step1 st r)).clusters = _
      rw [hrest.1, hstable.1]
    · show (rs.foldl (reconcileStep tm step1) (reconcileStep tm step1 st r)).representatives = _
      rw [hrest.2, hstable.2]

theorem reconcileStep_invariant {tm : List (Name × Name)} {step1 : List Name}
    {st : ResolveState} {raw : Name}
    (hlen : st.clusters.length = st.representatives.length)
    (hval : ∀ p ∈ st.name2cid, p.2 < st.clusters.length) :
    (reconcileStep tm step1 st raw).clusters.length =
      (reconcileStep tm step1 st raw).representatives.length ∧
    (∀ p ∈ (reconcileStep tm step1 st raw).name2cid,
      p.2 < (reconcileStep tm step1 st raw).clusters.length) := by
  cases hl : dlookup st.name2cid raw with
  | some _ => rw [reconcileStep_eq_skip hl]; exact ⟨hlen, hval⟩
  | none =>
    cases hf : findCluster st.clusters raw (expandName tm step1 raw) with
    | some cid =>
      rw [reconcileStep_eq_found hl hf]
      refine ⟨hlen, ?_⟩
      intro p hp
      rcases dinsert_entries p hp with rfl | hp'
      · exact findCluster_lt hf
      · exact hval p hp'
    | none =>
      rw [reconcileStep_eq_append hl hf]
      constructor
      · simp [hlen]
      · intro p hp
        simp only [List.length_append, List.length_cons, List.length_nil]
        rcases dinsert_entries p hp with rfl | hp'
        · simp
        · have := hval p hp'
          omega

theorem reconcile_fold_invariant {tm : List (Name × Name)} {step1 : List Name} :
    ∀ (raws : List Name) (st : ResolveState),
    st.clusters.length = st.representatives.length →
    (∀ p ∈ st.name2cid, p.2 < st.clusters.length) →
    (raws.foldl (reconcileStep tm step1) st).clusters.length =
      (raws.foldl (reconcileStep tm step1) st).representatives.length ∧
    (∀ p ∈ (raws.foldl (reconcileStep tm step1) st).name2cid,
      p.2 < (raws.foldl (reconcileStep tm step1) st).clusters.length) := by
  intro raws
  induction raws with
  | nil => intro st h1 h2; exact ⟨h1, h2⟩
  | cons r rs ih =>
    intro st h1 h2
    have hstep := @reconcileStep_invariant tm step1 st r h1 h2
    exact ih _ hstep.1 hstep.2

theorem repsList_length (step2 : List Name) :
    (repsList step2).length = (bucketKeys step2).length := by
  unfold repsList
  rw [List.length_map]

theorem expandName_mem_step2 {tm : List (Name × Name)} {raws : List Name} {raw : Name}
    (h : raw ∈ raws) : expandName tm (step1Of tm raws) raw ∈ step2Of tm raws := by
  unfold step2Of
  apply List.mem_map_of_mem
  unfold step1Of
  exact List.mem_map_of_mem _ h

theorem dedupe_eq_fold (tm : List (Name × Name)) (k : Nat) (th : ℚ)
    (embedFn : List Name → List (List ℚ)) (raws : List Name) :
    dedupe tm k th embedFn raws =
      raws.foldl (reconcileStep tm (step1Of tm raws))
        { clusters := clustersOfComps (graphOf tm k th embedFn raws)
            (repsList (step2Of tm raws)) (step2Of tm raws)
          name2cid := assignMembers (clustersOfComps (graphOf tm k th embedFn raws)
            (repsList (step2Of tm raws)) (step2Of tm raws))
          representatives := repsOfComps (graphOf tm k th embedFn raws)
            (repsList (step2Of tm raws)) } := rfl

theorem graphOf_n_eq (tm : List (Name × Name)) (k : Nat) (th : ℚ)
    (embedFn : List Name → List (List ℚ)) (raws : List Name)
    (hlen : (embedFn (repsList (step2Of tm raws))).length =
      (repsList (step2Of tm raws)).length) :
    (graphOf tm k th embedFn raws).n = (bucketKeys (step2Of tm raws)).length := by
  unfold graphOf
  rw [buildGraph_n, hlen, repsList_length]

theorem graphOf_wf (tm : List (Name × Name)) (k : Nat) (th : ℚ)
    (embedFn : List Name → List (List ℚ)) (raws : List Name) :
    ∀ e ∈ (graphOf tm k th embedFn raws).edges,
      e.1 < (graphOf tm k th embedFn raws).n ∧ e.2 < (graphOf tm k th embedFn raws).n :=
  buildGraph_wf _ _ _

theorem step2_cover (tm : List (Name × Name)) (k : Nat) (th : ℚ)
    (embedFn : List Name → List (List ℚ)) (raws : List Name)
    (hlen : (embedFn (repsList (step2Of tm raws))).length =
      (repsList (step2Of tm raws)).length)
    {nm0 : Name} (hnm0 : nm0 ∈ step2Of tm raws) :
    ∃ i, ∃ hi : i < (clustersOfComps (graphOf tm k th embedFn raws)
        (repsList (step2Of tm raws)) (step2Of tm raws)).length,
      nm0 ∈ (clustersOfComps (graphOf tm k th embedFn raws)
        (repsList (step2Of tm raws)) (step2Of tm raws)).get ⟨i, hi⟩ ∧
      ∀ x ∈ bucketOf (step2Of tm raws) (canonicalise nm0),
        x ∈ (clustersOfComps (graphOf tm k th embedFn raws)
          (repsList (step2Of tm raws)) (step2Of tm raws)).get ⟨i, hi⟩ := by
  have hkey : canonicalise nm0 ∈ bucketKeys (step2Of tm raws) :=
    bucketKeys_mem_iff.2 (List.mem_map_of_mem _ hnm0)
  obtain ⟨i, hi, hsub⟩ := clustersOfComps_cover (graphOf_wf tm k th embedFn raws)
    (graphOf_n_eq tm k th embedFn raws hlen) hkey
  exact ⟨i, hi, hsub nm0 (mem_bucketOf.2 ⟨hnm0, rfl⟩), hsub⟩

theorem dedupe_clusters_stable (tm : List (Name × Name)) (k : Nat) (th : ℚ)
    (embedFn : List Name → List (List ℚ)) (raws : List Name)
    (hlen : (embedFn (repsList (step2Of tm raws))).length =
      (repsList (step2Of tm raws)).length) :
    (dedupe tm k th embedFn raws).clusters =
      clustersOfComps (graphOf tm k th embedFn raws)
        (repsList (step2Of tm raws)) (step2Of tm raws) := by
  rw [dedupe_eq_fold]
  refine (reconcile_fold_clusters_stable raws _ ?_).1
  intro raw hraw
  obtain ⟨i, hi, hmem, _⟩ := step2_cover tm k th embedFn raws hlen
    (expandName_mem_step2 hraw)
  exact ⟨_, List.get_mem _ i hi, hmem⟩

/-- C1: the assignment returned by dedupe is total — every string occurring in
    the input batch is a key of the name-to-cluster-id mapping, whether or not
    alias expansion altered it or any bucket matched it (singleton fallback). -/
theorem c1_assignment_total (tm : List (Name × Name)) (k : Nat) (th : ℚ)
    (embedFn : List Name → List (List ℚ)) (raws : List Name) (raw : Name)
    (h : raw ∈ raws) :
    ∃ cid, dlookup (dedupe tm k th embedFn raws).name2cid raw = some cid := by
  rw [dedupe_eq_fold]
  exact reconcile_fold_total raws _ raw h

/-- C1 witness: the ticker AAPL, altered by expansion, still receives an id. -/
theorem c1_assignment_total_witness :
    ∃ cid, dlookup (dedupe tmApple 10 (mkRat 4 5) embedBasis
      [nm "AAPL"]).name2cid (nm "AAPL") = some cid :=
  c1_assignment_total tmApple 10 (mkRat 4 5) embedBasis [nm "AAPL"] (nm "AAPL")
    (by decide)

/-- C10: the clusters and representatives lists returned by dedupe have equal
    length, and every cluster id in the returned assignment indexes an actual
    cluster (cid is below the clusters list length). -/
theorem c10_output_shape (tm : List (Name × Name)) (k : Nat) (th : ℚ)
    (embedFn : List Name → List (List ℚ)) (raws : List Name) :
    (dedupe tm k th embedFn raws).clusters.length =
      (dedupe tm k th embedFn raws).representatives.length ∧
    ∀ p ∈ (dedupe tm k th embedFn raws).name2cid,
      p.2 < (dedupe tm k th embedFn raws).clusters.length := by
  rw [dedupe_eq_fold]
  apply reconcile_fold_invariant
  · rw [clustersOfComps_length]
    unfold repsOfComps
    rw [List.length_map]
  · exact assignMembers_val_lt

/-- C10 witness: the shape invariant at a concrete run. -/
theorem c10_output_shape_witness :
    (dedupe tmApple 10 (mkRat 4 5) embedBasis [nm "AAPL"]).clusters.length =
      (dedupe tmApple 10 (mkRat 4 5) embedBasis [nm "AAPL"]).representatives.length :=
  (c10_output_shape tmApple 10 (mkRat 4 5) embedBasis [nm "AAPL"]).1

/-- C2 counterexample: the raw name AAPL is replaced by Apple during ticker
    expansion, so the string AAPL appears in no cluster member list at all,
    though the claim requires every raw name to appear in exactly one. -/
theorem c2_membership_counterexample :
    nm "AAPL" ∈ [nm "AAPL"] ∧
    (dedupe tmApple 10 (mkRat 4 5) embedBasis [nm "AAPL"]).clusters = [[nm "Apple"]] ∧
    ∀ cl ∈ (dedupe tmApple 10 (mkRat 4 5) embedBasis [nm "AAPL"]).clusters,
      nm "AAPL" ∉ cl := by
  refine ⟨by decide, by with_unfolding_all decide, by with_unfolding_all decide⟩

/-- C2 corrected: cluster-membership totality holds for the expanded names: a
    name of the expanded batch appears in at least one cluster and in no more
    than one.  A raw name altered by alias expansion need not appear in any
    cluster member list (only its expansion does), although it still receives a
    cluster id. -/
theorem c2_amended_expanded_membership (tm : List (Name × Name)) (k : Nat) (th : ℚ)
    (embedFn : List Name → List (List ℚ)) (raws : List Name)
    (hlen : (embedFn (repsList (step2Of tm raws))).length =
      (repsList (step2Of tm raws)).length) :
    ∀ nm0 ∈ step2Of tm raws,
      (∃ cl ∈ (dedupe tm k th embedFn raws).clusters, nm0 ∈ cl) ∧
      (∀ (i1 i2 : Nat) (cl1 cl2 : List Name),
        ((dedupe tm k th embedFn raws).clusters)[i1]? = some cl1 →
        ((dedupe tm k th embedFn raws).clusters)[i2]? = some cl2 →
        nm0 ∈ cl1 → nm0 ∈ cl2 → i1 = i2) := by
  intro nm0 hnm0
  have hstable := dedupe_clusters_stable tm k th embedFn raws hlen
  obtain ⟨i, hi, hmem, _⟩ := step2_cover tm k th embedFn raws hlen hnm0
  constructor
  · rw [hstable]
    exact ⟨_, List.get_mem _ i hi, hmem⟩
  · intro i1 i2 cl1 cl2 hg1 hg2 hm1 hm2
    rw [hstable] at hg1 hg2
    have hi1 : i1 < (clustersOfComps (graphOf tm k th embedFn raws)
        (repsList (step2Of tm raws)) (step2Of tm raws)).length := by
      by_contra hbig
      rw [List.getElem?_eq_none (by omega)] at hg1
      exact absurd hg1 (by simp)
    have hi2 : i2 < (clustersOfComps (graphOf tm k th embedFn raws)
        (repsList (step2Of tm raws)) (step2Of tm raws)).length := by
      by_contra hbig
      rw [List.getElem?_eq_none (by omega)] at hg2
      exact absurd hg2 (by simp)
    rw [List.getElem?_eq_getElem hi1] at hg1
    rw [List.getElem?_eq_getElem hi2] at hg2
    have hcl1 : cl1 = (clustersOfComps (graphOf tm k th embedFn raws)
        (repsList (step2Of tm raws)) (step2Of tm raws)).get ⟨i1, hi1⟩ := by
      simpa [List.get_eq_getElem] using hg1.symm
    have hcl2 : cl2 = (clustersOfComps (graphOf tm k th embedFn raws)
        (repsList (step2Of tm raws)) (step2Of tm raws)).get ⟨i2, hi2⟩ := by
      simpa [List.get_eq_getElem] using hg2.symm
    rw [hcl1] at hm1
    rw [hcl2] at hm2
    exact clustersOfComps_unique (graphOf_wf tm k th embedFn raws)
      (graphOf_n_eq tm k th embedFn raws hlen) hi1 hi2 hm1 hm2

/-- C2 witness: a single unexpanded name appears in exactly one cluster. -/
theorem c2_amended_expanded_membership_witness :
    ∃ cl ∈ (dedupe [] 10 (mkRat 4 5) embedBasis [nm "Hello"]).clusters,
      nm "Hello" ∈ cl :=
  (c2_amended_expanded_membership [] 10 (mkRat 4 5) embedBasis [nm "Hello"]
    (by with_unfolding_all decide) (nm "Hello") (by decide)).1

/-- C3 counterexample: with ticker map AAPL to Apple and Y to AAPL on the
    batch AAPL, Y, Apple, the raw names AAPL and Apple both have alias
    expansions with canonical key apple, yet dedupe assigns AAPL the cluster id
    of the literal string AAPL (the expansion of Y), and Apple the id of
    Apple's cluster — two different ids. -/
theorem c3_merge_counterexample :
    expandName tmCollide (step1Of tmCollide [nm "AAPL", nm "Y", nm "Apple"])
      (nm "AAPL") = nm "Apple" ∧
    canonicalise (expandName tmCollide (step1Of tmCollide [nm "AAPL", nm "Y", nm "Apple"])
        (nm "AAPL")) =
      canonicalise (expandName tmCollide (step1Of tmCollide [nm "AAPL", nm "Y", nm "Apple"])
        (nm "Apple")) ∧
    dlookup (dedupe tmCollide 10 (mkRat 4 5) embedBasis
      [nm "AAPL", nm "Y", nm "Apple"]).name2cid (nm "AAPL") = some 1 ∧
    dlookup (dedupe tmCollide 10 (mkRat 4 5) embedBasis
      [nm "AAPL", nm "Y", nm "Apple"]).name2cid (nm "Apple") = some 0 := by
  refine ⟨by decide, by decide, ?_, ?_⟩
  · with_unfolding_all decide
  · with_unfolding_all decide

/-- C3 corrected: the exact-bucket merge guarantee holds for raw names that
    alias expansion leaves unchanged: if two such names have equal canonical
    keys, dedupe assigns them the same cluster id, whatever similarities the
    embedder produces.  A raw name that is altered by expansion can instead be
    captured by a coinciding member string and receive a different id (see the
    counterexample). -/
theorem c3_amended_exact_bucket (tm : List (Name × Name)) (k : Nat) (th : ℚ)
    (embedFn : List Name → List (List ℚ)) (raws : List Name)
    (hlen : (embedFn (repsList (step2Of tm raws))).length =
      (repsList (step2Of tm raws)).length)
    {r1 r2 : Name} (h1 : r1 ∈ raws) (h2 : r2 ∈ raws)
    (hfix1 : expandName tm (step1Of tm raws) r1 = r1)
    (hfix2 : expandName tm (step1Of tm raws) r2 = r2)
    (hkey : canonicalise r1 = canonicalise r2) :
    ∃ cid, dlookup (dedupe tm k th embedFn raws).name2cid r1 = some cid ∧
      dlookup (dedupe tm k th embedFn raws).name2cid r2 = some cid := by
  have hs1 : r1 ∈ step2Of tm raws := hfix1 ▸ expandName_mem_step2 h1
  have hs2 : r2 ∈ step2Of tm raws := hfix2 ▸ expandName_mem_step2 h2
  obtain ⟨i, hi, hmem1, hbucket⟩ := step2_cover tm k th embedFn raws hlen hs1
  have hmem2 : r2 ∈ (clustersOfComps (graphOf tm k th embedFn raws)
      (repsList (step2Of tm raws)) (step2Of tm raws)).get ⟨i, hi⟩ :=
    hbucket r2 (mem_bucketOf.2 ⟨hs2, hkey.symm⟩)
  have huniq : ∀ j, ∀ hj : j < (clustersOfComps (graphOf tm k th embedFn raws)
      (repsList (step2Of tm raws)) (step2Of tm raws)).length, ∀ x ∈ ({r1, r2} : Set Name),
      x ∈ (clustersOfComps (graphOf tm k th embedFn raws)
        (repsList (step2Of tm raws)) (step2Of tm raws)).get ⟨j, hj⟩ → j = i := by
    intro j hj x hx hxj
    rcases hx with rfl | hx
    · exact clustersOfComps_unique (graphOf_wf tm k th embedFn raws)
        (graphOf_n_eq tm k th embedFn raws hlen) hj hi hxj hmem1
    · rcases hx with rfl
      exact clustersOfComps_unique (graphOf_wf tm k th embedFn raws)
        (graphOf_n_eq tm k th embedFn raws hlen) hj hi hxj hmem2
  have hl1 : dlookup (assignMembers (clustersOfComps (graphOf tm k th embedFn raws)
      (repsList (step2Of tm raws)) (step2Of tm raws))) r1 = some i :=
    assignMembers_lookup hi hmem1 (fun j hj hm => huniq j hj r1 (by simp) hm)
  have hl2 : dlookup (assignMembers (clustersOfComps (graphOf tm k th embedFn raws)
      (repsList (step2Of tm raws)) (step2Of tm raws))) r2 = some i :=
    assignMembers_lookup hi hmem2 (fun j hj hm => huniq j hj r2 (by simp) hm)
  refine ⟨i, ?_, ?_⟩
  · rw [dedupe_eq_fold]
    exact reconcile_fold_preserves_lookup raws _ r1 i hl1
  · rw [dedupe_eq_fold]
    exact reconcile_fold_preserves_lookup raws _ r2 i hl2

/-- C3 witness: Apple Inc. and Apple Incorporated share a canonical key and
    get the same id. -/
theorem c3_amended_exact_bucket_witness :
    ∃ cid, dlookup (dedupe [] 10 (mkRat 4 5) embedBasis
        [nm "Apple Inc.", nm "Apple Incorporated"]).name2cid (nm "Apple Inc.") = some cid ∧
      dlookup (dedupe [] 10 (mkRat 4 5) embedBasis
        [nm "Apple Inc.", nm "Apple Incorporated"]).name2cid (nm "Apple Incorporated") = some cid :=
  c3_amended_exact_bucket [] 10 (mkRat 4 5) embedBasis
    [nm "Apple Inc.", nm "Apple Incorporated"]
    (by with_unfolding_all decide) (by decide) (by decide)
    (by decide) (by decide) (by decide)

theorem compMems_isolated {g : SimGraph} {v : Nat}
    (hiso : ∀ j, adjB g v j = false) :
    ∀ w ∈ compMems g v, w = v := by
  intro w hw
  rcases Relation.ReflTransGen.cases_head (mem_compMems_sound hw) with heq | ⟨c, hadj, _⟩
  · exact heq.symm
  · rw [hiso c] at hadj
    exact absurd hadj (by simp)

/-- C9 counterexample: the unmatched acronym ZZZZ (not a ticker key, no
    initials match in the batch) shares its canonical key zzzz with the other
    batch name zzzz, so its cluster also contains zzzz — not only occurrences
    of ZZZZ. -/
theorem c9_singleton_counterexample :
    isAcronym (nm "ZZZZ") = true ∧
    tmLookup [] (nm "ZZZZ") = none ∧
    (∀ cand ∈ step1Of [] [nm "ZZZZ", nm "zzzz"], initialsOf cand ≠ nm "ZZZZ") ∧
    (dedupe [] 10 (mkRat 4 5) embedBasis [nm "ZZZZ", nm "zzzz"]).clusters =
      [[nm "ZZZZ", nm "zzzz"]] ∧
    dlookup (dedupe [] 10 (mkRat 4 5) embedBasis
      [nm "ZZZZ", nm "zzzz"]).name2cid (nm "ZZZZ") = some 0 ∧
    nm "zzzz" ≠ nm "ZZZZ" := by
  refine ⟨by decide, by decide, by decide, ?_, ?_, by decide⟩
  · with_unfolding_all decide
  · with_unfolding_all decide

/-- C9 corrected: an unmatched acronym (not a ticker key, no initials match)
    remains in a cluster containing only its own occurrences provided
    additionally that no other expanded batch name shares its canonical key
    and that its bucket's node is isolated in the similarity graph; without
    those provisos the cluster can contain other strings (counterexample:
    another name with the same canonical key). -/
theorem c9_amended_singleton (tm : List (Name × Name)) (k : Nat) (th : ℚ)
    (embedFn : List Name → List (List ℚ)) (raws : List Name) (T : Name)
    (hlen : (embedFn (repsList (step2Of tm raws))).length =
      (repsList (step2Of tm raws)).length)
    (hT : T ∈ raws)
    (hacr : isAcronym T = true)
    (hticker : tmLookup tm T = none)
    (hinit : ∀ cand ∈ step1Of tm raws, initialsOf cand ≠ T)
    (hkeyuniq : ∀ x ∈ step2Of tm raws, canonicalise x = canonicalise T → x = T)
    (hiso : ∀ i j, ∀ hi : i < (bucketKeys (step2Of tm raws)).length,
      (bucketKeys (step2Of tm raws)).get ⟨i, hi⟩ = canonicalise T →
      adjB (graphOf tm k th embedFn raws) i j = false) :
    ∃ cid, ∃ cl : List Name,
      dlookup (dedupe tm k th embedFn raws).name2cid T = some cid ∧
      ((dedupe tm k th embedFn raws).clusters)[cid]? = some cl ∧
      T ∈ cl ∧ ∀ x ∈ cl, x = T := by
  have hfix : expandName tm (step1Of tm raws) T = T := by
    unfold expandName expandTicker
    rw [hticker]
    have he1 : (if isTickerTok T then T else T) = T := by split <;> rfl
    rw [he1, if_pos hacr]
    unfold expandAcronym
    rw [upperStr_of_isAcronym hacr]
    have : (step1Of tm raws).find? (fun cand => initialsOf cand == T) = none := by
      rw [List.find?_eq_none]
      intro x hx
      simpa using hinit x hx
    rw [this]
  have hsT : T ∈ step2Of tm raws := hfix ▸ expandName_mem_step2 hT
  obtain ⟨i, hi, hmem, hbucket⟩ := step2_cover tm k th embedFn raws hlen hsT
  have hwf := graphOf_wf tm k th embedFn raws
  have hn := graphOf_n_eq tm k th embedFn raws hlen
  -- every member of cluster i is T
  have honly : ∀ x ∈ (clustersOfComps (graphOf tm k th embedFn raws)
      (repsList (step2Of tm raws)) (step2Of tm raws)).get ⟨i, hi⟩, x = T := by
    -- first identify the node of T's bucket inside component i
    have hic : i < (gComponents (graphOf tm k th embedFn raws)).length := by
      rwa [clustersOfComps_length] at hi
    have hTmem := hmem
    rw [clustersOfComps_get] at hTmem
    obtain ⟨r0, hr0c, hr0b⟩ := List.mem_flatMap.1 hTmem
    have hcmem : (gComponents (graphOf tm k th embedFn raws)).get ⟨i, hic⟩ ∈
        gComponents (graphOf tm k th embedFn raws) := List.get_mem _ _ _
    have hr0n : r0 < (graphOf tm k th embedFn raws).n :=
      gComponents_mem_subset_range hcmem r0 hr0c
    have hr0k : r0 < (bucketKeys (step2Of tm raws)).length := by omega
    have hr0key : (bucketKeys (step2Of tm raws)).get ⟨r0, hr0k⟩ = canonicalise T := by
      rw [repsList_getD hr0k] at hr0b
      have h1 := (mem_bucketOf.1 hr0b).2
      rw [← (canon_repOf (List.get_mem (bucketKeys (step2Of tm raws)) r0 hr0k)).1]
      exact h1.symm
    have hr0iso : ∀ j, adjB (graphOf tm k th embedFn raws) r0 j = false :=
      fun j => hiso r0 j hr0k hr0key
    -- the component is the singleton of r0
    obtain ⟨v, hv, hlead, hcomp⟩ := mem_gComponents_iff.1 hcmem
    have hr0comp : r0 ∈ compMems (graphOf tm k th embedFn raws) v := by
      rw [← hcomp]; exact hr0c
    have hcongr : compMems (graphOf tm k th embedFn raws) r0 =
        compMems (graphOf tm k th embedFn raws) v :=
      compMems_congr hwf hv hr0comp
    intro x hx
    rw [clustersOfComps_get] at hx
    obtain ⟨r, hrc, hrb⟩ := List.mem_flatMap.1 hx
    have hrcomp : r ∈ compMems (graphOf tm k th embedFn raws) v := by
      rw [← hcomp]; exact hrc
    have hrr0 : r = r0 := by
      rw [← hcongr] at hrcomp
      exact compMems_isolated hr0iso r hrcomp
    subst hrr0
    have hrk : r < (bucketKeys (step2Of tm raws)).length := hr0k
    rw [repsList_getD hrk] at hrb
    have hx2 := mem_bucketOf.1 hrb
    have hxkey : canonicalise x = canonicalise T := by
      rw [hx2.2]
      rw [(canon_repOf (List.get_mem _ _ _)).1]
      exact hr0key
    exact hkeyuniq x hx2.1 hxkey
  -- the id assigned to T
  have huniq : ∀ j, ∀ hj : j < (clustersOfComps (graphOf tm k th embedFn raws)
      (repsList (step2Of tm raws)) (step2Of tm raws)).length,
      T ∈ (clustersOfComps (graphOf tm k th embedFn raws)
        (repsList (step2Of tm raws)) (step2Of tm raws)).get ⟨j, hj⟩ → j = i :=
    fun j hj hm => clustersOfComps_unique hwf hn hj hi hm hmem
  have hlT : dlookup (assignMembers (clustersOfComps (graphOf tm k th embedFn raws)
      (repsList (step2Of tm raws)) (step2Of tm raws))) T = some i :=
    assignMembers_lookup hi hmem huniq
  have hstable := dedupe_clusters_stable tm k th embedFn raws hlen
  refine ⟨i, (clustersOfComps (graphOf tm k th embedFn raws)
      (repsList (step2Of tm raws)) (step2Of tm raws)).get ⟨i, hi⟩, ?_, ?_, hmem, honly⟩
  · rw [dedupe_eq_fold]
    exact reconcile_fold_preserves_lookup raws _ T i hlT
  · rw [hstable]
    rw [List.getElem?_eq_getElem hi]
    simp [List.get_eq_getElem]

/-- C9 witness: the acronym ZZZZ in a batch whose other name has a different
    canonical key and an orthogonal embedding stays a singleton. -/
theorem c9_amended_singleton_witness :
    ∃ cid, ∃ cl : List Name,
      dlookup (dedupe [] 10 (mkRat 4 5) embedBasis
        [nm "ZZZZ", nm "Hello"]).name2cid (nm "ZZZZ") = some cid ∧
      ((dedupe [] 10 (mkRat 4 5) embedBasis [nm "ZZZZ", nm "Hello"]).clusters)[cid]? =
        some cl ∧
      nm "ZZZZ" ∈ cl ∧ ∀ x ∈ cl, x = nm "ZZZZ" := by
  apply c9_amended_singleton [] 10 (mkRat 4 5) embedBasis [nm "ZZZZ", nm "Hello"]
    (nm "ZZZZ")
  · with_unfolding_all decide
  · decide
  · decide
  · decide
  · decide
  · decide
  · intro i j hi hget
    have hedges : (graphOf [] 10 (mkRat 4 5) embedBasis [nm "ZZZZ", nm "Hello"]).edges = [] := by
      with_unfolding_all decide
    unfold adjB
    rw [hedges]
    rfl

theorem buildGraph_edges_antitone {X : List (List ℚ)} {k : Nat} {t1 t2 : ℚ}
    (hle : t1 ≤ t2) :
    ∀ e ∈ (buildGraph X k t2).edges, e ∈ (buildGraph X k t1).edges := by
  intro e he
  have he2 : (e.1, e.2) ∈ (buildGraphFromSearch X.length (faissSearch X k) t2).edges := by
    rwa [show ((e.1, e.2) : Nat × Nat) = e from rfl]
  obtain ⟨hlt, s, hs, hth⟩ := mem_buildGraphFromSearch_edges.1 he2
  have he1 : (e.1, e.2) ∈ (buildGraphFromSearch X.length (faissSearch X k) t1).edges :=
    mem_buildGraphFromSearch_edges.2 ⟨hlt, s, hs, le_trans hle hth⟩
  rwa [show ((e.1, e.2) : Nat × Nat) = e from rfl] at he1

/-- C5: with the batch, ticker map, embedding vectors (hence the ANN search
    results) and k held fixed, raising the cosine threshold from t1 to t2 only
    removes graph edges (the t2 edge set is a subset of the t1 edge set), and
    the number of clusters dedupe returns at t2 is at least the number at t1 —
    raising the threshold never increases merging. -/
theorem c5_threshold_monotone (tm : List (Name × Name)) (k : Nat)
    (embedFn : List Name → List (List ℚ)) (raws : List Name) (t1 t2 : ℚ)
    (hle : t1 ≤ t2)
    (hlen : (embedFn (repsList (step2Of tm raws))).length =
      (repsList (step2Of tm raws)).length) :
    (∀ e ∈ (graphOf tm k t2 embedFn raws).edges, e ∈ (graphOf tm k t1 embedFn raws).edges) ∧
    (dedupe tm k t1 embedFn raws).clusters.length ≤
      (dedupe tm k t2 embedFn raws).clusters.length := by
  have hsub : ∀ e ∈ (graphOf tm k t2 embedFn raws).edges,
      e ∈ (graphOf tm k t1 embedFn raws).edges := by
    unfold graphOf
    exact buildGraph_edges_antitone hle
  refine ⟨hsub, ?_⟩
  rw [dedupe_clusters_stable tm k t1 embedFn raws hlen,
    dedupe_clusters_stable tm k t2 embedFn raws hlen]
  rw [clustersOfComps_length, clustersOfComps_length]
  exact gComponents_count_mono rfl hsub (graphOf_wf tm k t1 embedFn raws)

/-- C5 witness: concrete thresholds 1/2 and 4/5 on a two-name batch. -/
theorem c5_threshold_monotone_witness :
    (dedupe [] 10 (mkRat 1 2) embedUnit [nm "Aaa", nm "Bbb"]).clusters.length ≤
      (dedupe [] 10 (mkRat 4 5) embedUnit [nm "Aaa", nm "Bbb"]).clusters.length :=
  (c5_threshold_monotone [] 10 embedUnit [nm "Aaa", nm "Bbb"] (mkRat 1 2) (mkRat 4 5)
    (by with_unfolding_all decide) (by with_unfolding_all decide)).2

theorem char_toNat_ofNat_valid (n : Nat) (h1 : 97 ≤ n) (h2 : n ≤ 122) :
    (Char.ofNat n).toNat = n := by
  have hv : n.isValidChar := Or.inl (by omega)
  simp only [Char.ofNat, hv, dif_pos, Char.ofNatAux, Char.toNat]
  rfl

theorem toLower_not_upper (c : Char) :
    ¬((c.toLower).toNat ≥ 65 ∧ (c.toLower).toNat ≤ 90) := by
  unfold Char.toLower
  by_cases h : c.toNat ≥ 65 ∧ c.toNat ≤ 90
  · rw [if_pos h]
    rw [char_toNat_ofNat_valid _ (by omega) (by omega)]
    omega
  · rw [if_neg h]
    exact h

theorem toLower_fix {c : Char} (h : ¬(c.toNat ≥ 65 ∧ c.toNat ≤ 90)) : c.toLower = c := by
  unfold Char.toLower
  rw [if_neg h]

theorem toLower_idem (c : Char) : c.toLower.toLower = c.toLower :=
  toLower_fix (toLower_not_upper c)

theorem isWordChar_not_space {c : Char} (h : isWordChar c = true) :
    isPySpace c = false ∧ sepChar c = false := by
  have hsp : isPySpace c = false := by
    cases hc : isPySpace c with
    | false => rfl
    | true =>
      simp only [isPySpace, Bool.or_eq_true, beq_iff_eq] at hc
      rcases hc with ((((rfl | rfl) | rfl) | rfl) | rfl) | rfl <;> exact absurd h (by decide)
  refine ⟨hsp, ?_⟩
  have hdot : (c == '.') = false := by
    cases hc : (c == '.') with
    | false => rfl
    | true =>
      have : c = '.' := by simpa using hc
      subst this
      exact absurd h (by decide)
  simp [sepChar, hsp, hdot]

theorem matchPre_self_append : ∀ (t r : List Char), matchPre t (t ++ r) = true := by
  intro t
  induction t with
  | nil => intro r; rfl
  | cons c cs ih => intro r; simp [matchPre, ih]

theorem matchPre_take : ∀ {σ s : List Char}, matchPre σ s = true →
    s.take σ.length = σ ∧ σ.length ≤ s.length := by
  intro σ
  induction σ with
  | nil => intro s _; simp
  | cons a as ih =>
    intro s h
    cases s with
    | nil => simp [matchPre] at h
    | cons b bs =>
      simp only [matchPre, Bool.and_eq_true, beq_iff_eq] at h
      obtain ⟨heq, h2⟩ := h
      subst heq
      obtain ⟨ht, hl⟩ := ih h2
      constructor
      · simp only [List.length_cons, List.take_succ_cons]
        rw [ht]
      · simp only [List.length_cons]
        omega

theorem findSome?_exists {α β} {f : α → Option β} :
    ∀ {l : List α} {r : β}, l.findSome? f = some r → ∃ a ∈ l, f a = some r := by
  intro l
  induction l with
  | nil => intro r h; simp at h
  | cons a as ih =>
    intro r h
    rw [List.findSome?_cons] at h
    cases ha : f a with
    | some v =>
      rw [ha] at h
      exact ⟨a, List.mem_cons_self a as, ha.trans h⟩
    | none =>
      rw [ha] at h
      obtain ⟨b, hb, hfb⟩ := ih h
      exact ⟨b, List.mem_cons_of_mem a hb, hfb⟩

theorem matchOne_rest_subset {σ s r : List Char} (h : matchOne σ s = some r) :
    ∀ c ∈ r, c ∈ s := by
  unfold matchOne at h
  split at h
  · split at h
    · simp only [Option.some.injEq] at h
      subst h
      intro c hc
      simp at hc
    · rename_i d ds hd
      split at h
      · simp only [Option.some.injEq] at h
        subst h
        intro c hc
        have : c ∈ d :: ds := List.mem_cons_of_mem d hc
        rw [← hd] at this
        exact List.drop_subset _ _ this
      · exact absurd h (by simp)
  · exact absurd h (by simp)

theorem matchSuffixAt_rest_subset {s r : List Char} (h : matchSuffixAt s = some r) :
    ∀ c ∈ r, c ∈ s := by
  obtain ⟨σ, _, hσ⟩ := findSome?_exists h
  exact matchOne_rest_subset hσ

theorem suffixSubAux_chars :
    ∀ (n : Nat) (s : List Char), s.length ≤ n → ∀ (prevW : Bool),
    ∀ c ∈ suffixSubAux prevW s, c = ' ' ∨ c ∈ s := by
  intro n
  induction n with
  | zero =>
    intro s hs prevW
    have : s = [] := List.length_eq_zero.1 (Nat.le_zero.1 hs)
    subst this
    intro c hc
    rw [suffixSubAux_nil] at hc
    simp at hc
  | succ m ih =>
    intro s hs prevW c hc
    cases s with
    | nil => rw [suffixSubAux_nil] at hc; simp at hc
    | cons a as =>
      simp only [List.length_cons] at hs
      cases prevW with
      | true =>
        rw [suffixSubAux_cons_true] at hc
        rcases List.mem_cons.1 hc with rfl | hc'
        · exact Or.inr (List.mem_cons_self _ _)
        · rcases ih as (by omega) (isWordChar a) c hc' with h | h
          · exact Or.inl h
          · exact Or.inr (List.mem_cons_of_mem a h)
      | false =>
        cases hm : matchSuffixAt (a :: as) with
        | some rest =>
          rw [suffixSubAux_cons_match hm] at hc
          rcases List.mem_cons.1 hc with rfl | hc'
          · exact Or.inl rfl
          · have hlen : rest.length ≤ m := by
              have := matchSuffixAt_some_length (by simp) hm
              simp only [List.length_cons] at this
              omega
            rcases ih rest hlen false c hc' with h | h
            · exact Or.inl h
            · exact Or.inr (matchSuffixAt_rest_subset hm c h)
        | none =>
          rw [suffixSubAux_cons_nomatch hm] at hc
          rcases List.mem_cons.1 hc with rfl | hc'
          · exact Or.inr (List.mem_cons_self _ _)
          · rcases ih as (by omega) (isWordChar a) c hc' with h | h
            · exact Or.inl h
            · exact Or.inr (List.mem_cons_of_mem a h)

theorem pySplitAux_tokens :
    ∀ (s acc : List Char), (∀ c ∈ acc, isPySpace c = false) →
    ∀ t ∈ pySplitAux s acc, t ≠ [] ∧ ∀ c ∈ t, isPySpace c = false ∧ (c ∈ acc ∨ c ∈ s) := by
  intro s
  induction s with
  | nil =>
    intro acc hacc t ht
    unfold pySplitAux at ht
    split at ht
    · simp at ht
    · rename_i hne
      simp only [List.mem_singleton] at ht
      subst ht
      refine ⟨by simpa [List.isEmpty_iff] using hne, ?_⟩
      intro c hc
      have : c ∈ acc := by simpa using hc
      exact ⟨hacc c this, Or.inl this⟩
  | cons a as ih =>
    intro acc hacc t ht
    unfold pySplitAux at ht
    split at ht
    · rename_i hsp
      split at ht
      · obtain ⟨h1, h2⟩ := ih [] (by simp) t ht
        refine ⟨h1, ?_⟩
        intro c hc
        obtain ⟨hc1, hc2⟩ := h2 c hc
        rcases hc2 with h | h
        · simp at h
        · exact ⟨hc1, Or.inr (List.mem_cons_of_mem a h)⟩
      · rcases List.mem_cons.1 ht with rfl | ht'
        · rename_i hne
          refine ⟨by simpa [List.isEmpty_iff] using hne, ?_⟩
          intro c hc
          have : c ∈ acc := by simpa using hc
          exact ⟨hacc c this, Or.inl this⟩
        · obtain ⟨h1, h2⟩ := ih [] (by simp) t ht'
          refine ⟨h1, ?_⟩
          intro c hc
          obtain ⟨hc1, hc2⟩ := h2 c hc
          rcases hc2 with h | h
          · simp at h
          · exact ⟨hc1, Or.inr (List.mem_cons_of_mem a h)⟩
    · rename_i hsp
      obtain ⟨h1, h2⟩ := ih (a :: acc)
        (by
          intro c hc
          rcases List.mem_cons.1 hc with rfl | hc'
          · simpa using hsp
          · exact hacc c hc') t ht
      refine ⟨h1, ?_⟩
      intro c hc
      obtain ⟨hc1, hc2⟩ := h2 c hc
      rcases hc2 with h | h
      · rcases List.mem_cons.1 h with rfl | h'
        · exact ⟨hc1, Or.inr (List.mem_cons_self _ _)⟩
        · exact ⟨hc1, Or.inl h'⟩
      · exact ⟨hc1, Or.inr (List.mem_cons_of_mem a h)⟩

theorem pySplit_tokens {s : List Char} :
    ∀ t ∈ pySplit s, t ≠ [] ∧ ∀ c ∈ t, isPySpace c = false ∧ c ∈ s := by
  intro t ht
  obtain ⟨h1, h2⟩ := pySplitAux_tokens s [] (by simp) t ht
  refine ⟨h1, ?_⟩
  intro c hc
  obtain ⟨hc1, hc2⟩ := h2 c hc
  rcases hc2 with h | h
  · simp at h
  · exact ⟨hc1, h⟩

theorem pySplitAux_word_pre :
    ∀ (t rest acc : List Char), (∀ c ∈ t, isPySpace c = false) →
    pySplitAux (t ++ rest) acc = pySplitAux rest (t.reverse ++ acc) := by
  intro t
  induction t with
  | nil => intro rest acc _; simp
  | cons a as ih =>
    intro rest acc ht
    have ha : isPySpace a = false := ht a (List.mem_cons_self a as)
    show pySplitAux (a :: (as ++ rest)) acc = pySplitAux rest ((a :: as).reverse ++ acc)
    simp only [pySplitAux, ha, Bool.false_eq_true, if_false]
    rw [ih rest (a :: acc) (fun c hc => ht c (List.mem_cons_of_mem a hc))]
    have harr : as.reverse ++ (a :: acc) = (a :: as).reverse ++ acc := by simp
    rw [harr]

theorem pySplit_space_cons (r : List Char) : pySplit (' ' :: r) = pySplit r := by
  show pySplitAux (' ' :: r) [] = pySplitAux r []
  simp [pySplitAux, isPySpace]

theorem pySplit_token_append {t r : List Char} (htne : t ≠ [])
    (ht : ∀ c ∈ t, isPySpace c = false) :
    pySplit (t ++ ' ' :: r) = t :: pySplit r := by
  show pySplitAux (t ++ ' ' :: r) [] = t :: pySplitAux r []
  rw [pySplitAux_word_pre t (' ' :: r) [] ht]
  rw [List.append_nil]
  have hne : t.reverse.isEmpty = false := by
    simp [List.isEmpty_iff, htne]
  simp [pySplitAux, isPySpace, hne]

theorem pySplit_token_only {t : List Char} (htne : t ≠ [])
    (ht : ∀ c ∈ t, isPySpace c = false) : pySplit t = [t] := by
  have key : pySplit (t ++ []) = [t] := by
    show pySplitAux (t ++ []) [] = [t]
    rw [pySplitAux_word_pre t [] [] ht]
    rw [List.append_nil]
    have hne : t.reverse.isEmpty = false := by
      simp [List.isEmpty_iff, htne]
    simp [pySplitAux, hne]
  simpa using key

theorem joinSpaces_nil : joinSpaces [] = [] := rfl

theorem joinSpaces_single (t : Name) : joinSpaces [t] = t := by
  show List.intercalate [' '] [t] = t
  rw [List.intercalate]
  simp

theorem joinSpaces_cons2 (t u : Name) (ts : List Name) :
    joinSpaces (t :: u :: ts) = t ++ ' ' :: joinSpaces (u :: ts) := by
  simp only [joinSpaces, List.intercalate]
  rw [List.intersperse_cons_cons]
  simp

theorem joinSpaces_chars : ∀ (ts : List Name), ∀ c ∈ joinSpaces ts,
    c = ' ' ∨ ∃ t ∈ ts, c ∈ t := by
  intro ts
  induction ts with
  | nil => intro c hc; rw [joinSpaces_nil] at hc; simp at hc
  | cons t ts ih =>
    intro c hc
    cases ts with
    | nil =>
      rw [joinSpaces_single] at hc
      exact Or.inr ⟨t, List.mem_cons_self _ _, hc⟩
    | cons u ts' =>
      rw [joinSpaces_cons2] at hc
      rcases List.mem_append.1 hc with h | h
      · exact Or.inr ⟨t, List.mem_cons_self _ _, h⟩
      · rcases List.mem_cons.1 h with rfl | h'
        · exact Or.inl rfl
        · rcases ih c h' with h'' | ⟨t', ht', hc'⟩
          · exact Or.inl h''
          · exact Or.inr ⟨t', List.mem_cons_of_mem t ht', hc'⟩

theorem pySplit_joinSpaces :
    ∀ (ts : List Name), (∀ t ∈ ts, t ≠ [] ∧ ∀ c ∈ t, isPySpace c = false) →
    pySplit (joinSpaces ts) = ts := by
  intro ts
  induction ts with
  | nil => intro _; rw [joinSpaces_nil]; rfl
  | cons t ts ih =>
    intro hgood
    obtain ⟨htne, htns⟩ := hgood t (List.mem_cons_self t ts)
    cases ts with
    | nil =>
      rw [joinSpaces_single]
      exact pySplit_token_only htne htns
    | cons u ts' =>
      rw [joinSpaces_cons2]
      rw [pySplit_token_append htne htns]
      rw [ih (fun t' ht' => hgood t' (List.mem_cons_of_mem t ht'))]

theorem matchOne_self (t : List Char) : matchOne t t = some [] := by
  have h1 : matchPre t t = true := by simpa using matchPre_self_append t []
  simp [matchOne, h1, List.drop_length]

theorem matchOne_self_sep (t r : List Char) :
    matchOne t (t ++ ' ' :: r) = some r := by
  have h1 : matchPre t (t ++ ' ' :: r) = true := matchPre_self_append t _
  have h2 : (t ++ ' ' :: r).drop t.length = ' ' :: r := List.drop_left t (' ' :: r)
  simp [matchOne, h1, h2, sepChar, isPySpace]

theorem matchOne_word_eq {σ t r res : List Char}
    (hσ : ∀ c ∈ σ, isWordChar c = true)
    (ht : ∀ c ∈ t, isWordChar c = true) (htne : t ≠ [])
    (hr : r = [] ∨ ∃ z, r = ' ' :: z)
    (h : matchOne σ (t ++ r) = some res) : σ = t := by
  unfold matchOne at h
  split at h
  · rename_i hpre
    obtain ⟨htake, hlen⟩ := matchPre_take hpre
    rcases Nat.lt_trichotomy σ.length t.length with hlt | heq | hgt
    · exfalso
      have hdrop : (t ++ r).drop σ.length = t.drop σ.length ++ r :=
        List.drop_append_of_le_length (by omega)
      have hne : t.drop σ.length ≠ [] := by
        intro hcon
        have := congrArg List.length hcon
        simp only [List.length_drop, List.length_nil] at this
        omega
      cases hdd : t.drop σ.length with
      | nil => exact hne hdd
      | cons d ds =>
        have hdmem : d ∈ t := by
          have : d ∈ t.drop σ.length := by rw [hdd]; exact List.mem_cons_self d ds
          exact List.drop_subset _ _ this
        have hsep : sepChar d = false := (isWordChar_not_space (ht d hdmem)).2
        rw [hdrop, hdd] at h
        simp only [List.cons_append] at h
        split at h
        · rename_i hsep'
          rw [hsep] at hsep'
          exact absurd hsep' (by simp)
        · exact absurd h (by simp)
    · rw [← htake, heq]
      exact List.take_left t r
    · exfalso
      rcases hr with rfl | ⟨z, rfl⟩
      · simp only [List.append_nil] at hlen
        omega
      · have hsp : ' ' ∈ σ := by
          rw [← htake]
          rw [List.take_append_eq_append_take]
          apply List.mem_append_right
          have hpos : 0 < σ.length - t.length := by omega
          cases hd : σ.length - t.length with
          | zero => omega
          | succ m =>
            rw [List.take_succ_cons]
            exact List.mem_cons_self _ _
        have := hσ ' ' hsp
        exact absurd this (by decide)
  · exact absurd h (by simp)

theorem matchOne_sdnbhd {t r res : List Char}
    (ht : ∀ c ∈ t, isWordChar c = true) (htne : t ≠ [])
    (hr : r = [] ∨ ∃ z, r = ' ' :: z)
    (h : matchOne ("sdn bhd".toList) (t ++ r) = some res) :
    t = "sdn".toList ∧ ∃ z, r = ' ' :: z ∧ matchOne ("bhd".toList) z = some res := by
  have hσ : "sdn bhd".toList = ['s', 'd', 'n', ' ', 'b', 'h', 'd'] := rfl
  rw [hσ] at h
  unfold matchOne at h
  split at h
  · rename_i hpre
    cases t with
    | nil => exact absurd rfl htne
    | cons c1 t1 =>
      simp only [List.cons_append, matchPre, Bool.and_eq_true, beq_iff_eq] at hpre
      obtain ⟨hc1, hpre⟩ := hpre
      subst hc1
      cases t1 with
      | nil =>
        exfalso
        cases r with
        | nil => simp [matchPre] at hpre
        | cons rc rr =>
          rcases hr with hcon | ⟨z, hz⟩
          · exact absurd hcon (by simp)
          · simp only [List.nil_append, matchPre, Bool.and_eq_true, beq_iff_eq] at hpre
            obtain ⟨hrc, _⟩ := hpre
            have h1 : rc = ' ' := by
              injection hz
            rw [← hrc] at h1
            exact absurd h1 (by decide)
      | cons c2 t2 =>
        simp only [List.cons_append, matchPre, Bool.and_eq_true, beq_iff_eq] at hpre
        obtain ⟨hc2, hpre⟩ := hpre
        subst hc2
        cases t2 with
        | nil =>
          exfalso
          cases r with
          | nil => simp [matchPre] at hpre
          | cons rc rr =>
            rcases hr with hcon | ⟨z, hz⟩
            · exact absurd hcon (by simp)
            · simp only [List.nil_append, matchPre, Bool.and_eq_true, beq_iff_eq] at hpre
              obtain ⟨hrc, _⟩ := hpre
              have h1 : rc = ' ' := by
                injection hz
              rw [← hrc] at h1
              exact absurd h1 (by decide)
        | cons c3 t3 =>
          simp only [List.cons_append, matchPre, Bool.and_eq_true, beq_iff_eq] at hpre
          obtain ⟨hc3, hpre⟩ := hpre
          subst hc3
          cases t3 with
          | cons c4 t4 =>
            exfalso
            have hw4 : isWordChar c4 = true := ht c4 (by simp)
            simp only [List.cons_append, matchPre, Bool.and_eq_true, beq_iff_eq] at hpre
            obtain ⟨hc4, _⟩ := hpre
            rw [← hc4] at hw4
            exact absurd hw4 (by decide)
          | nil =>
            cases r with
            | nil => simp [matchPre] at hpre
            | cons rc rr =>
              simp only [List.nil_append, matchPre, Bool.and_eq_true, beq_iff_eq] at hpre
              obtain ⟨hrc, hpre⟩ := hpre
              subst hrc
              refine ⟨rfl, rr, rfl, ?_⟩
              have hb : ("bhd".toList : List Char) = ['b', 'h', 'd'] := rfl
              rw [hb]
              unfold matchOne
              rw [if_pos hpre]
              have hdrop : ((['s', 'd', 'n'] : List Char) ++ (' ' :: rr)).drop
                  (['s', 'd', 'n', ' ', 'b', 'h', 'd'] : List Char).length = rr.drop 3 := rfl
              rw [hdrop] at h
              have hdrop2 : rr.drop (['b', 'h', 'd'] : List Char).length = rr.drop 3 := rfl
              rw [hdrop2]
              exact h
  · exact absurd h (by simp)

theorem suffix_shape : ∀ σ ∈ suffixStrings,
    σ = "sdn bhd".toList ∨ (σ ≠ [] ∧ ∀ c ∈ σ, isWordChar c = true) := by decide

theorem sdn_not_suffix : "sdn".toList ∉ suffixStrings := by decide

theorem matchOne_dispatch {σ t r v : List Char}
    (hσ : σ ∈ suffixStrings)
    (ht : ∀ c ∈ t, isWordChar c = true) (htne : t ≠ [])
    (hr : r = [] ∨ ∃ z, r = ' ' :: z)
    (h : matchOne σ (t ++ r) = some v) :
    σ = t ∨ (t = "sdn".toList ∧ ∃ z, r = ' ' :: z ∧ matchOne ("bhd".toList) z = some v) := by
  rcases suffix_shape σ hσ with rfl | ⟨_, hw⟩
  · exact Or.inr (matchOne_sdnbhd ht htne hr h)
  · exact Or.inl (matchOne_word_eq hw ht htne hr h)

theorem findSome?_eq_of_unique {α β} {f : α → Option β} {a0 : α} {v0 : β}
    (hf : f a0 = some v0) :
    ∀ (l : List α), a0 ∈ l → (∀ a ∈ l, ∀ v, f a = some v → v = v0) →
    l.findSome? f = some v0 := by
  intro l
  induction l with
  | nil => intro h _; simp at h
  | cons b bs ih =>
    intro ha0 huniq
    rw [List.findSome?_cons]
    cases hb : f b with
    | some v =>
      rw [huniq b (List.mem_cons_self b bs) v hb]
    | none =>
      have ha0' : a0 ∈ bs := by
        rcases List.mem_cons.1 ha0 with rfl | h
        · rw [hf] at hb; exact absurd hb (by simp)
        · exact h
      exact ih ha0' (fun a ha v hv => huniq a (List.mem_cons_of_mem b ha) v hv)

theorem matchSuffixAt_token_last {t : List Char}
    (htw : ∀ c ∈ t, isWordChar c = true) (htne : t ≠ [])
    (hmem : t ∈ suffixStrings) : matchSuffixAt t = some [] := by
  unfold matchSuffixAt
  refine findSome?_eq_of_unique ?_ suffixStrings hmem ?_
  · exact matchOne_self t
  intro σ hσ v hv
  have hv' : matchOne σ (t ++ []) = some v := by simpa using hv
  rcases matchOne_dispatch hσ htw htne (Or.inl rfl) hv' with rfl | ⟨_, z, hz, _⟩
  · have := (matchOne_self σ).symm.trans hv
    simpa using this
  · exact absurd hz (by simp)

theorem matchSuffixAt_token_mid {t z : List Char}
    (htw : ∀ c ∈ t, isWordChar c = true) (htne : t ≠ [])
    (hmem : t ∈ suffixStrings) : matchSuffixAt (t ++ ' ' :: z) = some z := by
  unfold matchSuffixAt
  refine findSome?_eq_of_unique ?_ suffixStrings hmem ?_
  · exact matchOne_self_sep t z
  intro σ hσ v hv
  rcases matchOne_dispatch hσ htw htne (Or.inr ⟨z, rfl⟩) hv with rfl | ⟨hsdn, _, _, _⟩
  · have := (matchOne_self_sep σ z).symm.trans hv
    have hzv : z = v := by simpa using this
    exact hzv.symm
  · rw [hsdn] at hmem
    exact absurd hmem sdn_not_suffix

theorem matchSuffixAt_token_none_last {t : List Char}
    (htw : ∀ c ∈ t, isWordChar c = true) (htne : t ≠ [])
    (hmem : t ∉ suffixStrings) : matchSuffixAt t = none := by
  unfold matchSuffixAt
  rw [List.findSome?_eq_none_iff]
  intro σ hσ
  cases hv : matchOne σ t with
  | none => rfl
  | some v =>
    exfalso
    have hv' : matchOne σ (t ++ []) = some v := by simpa using hv
    rcases matchOne_dispatch hσ htw htne (Or.inl rfl) hv' with rfl | ⟨_, z, hz, _⟩
    · exact hmem hσ
    · exact absurd hz (by simp)

theorem matchSuffixAt_token_none_mid {t z : List Char}
    (htw : ∀ c ∈ t, isWordChar c = true) (htne : t ≠ [])
    (hmem : t ∉ suffixStrings)
    (hsdn : ¬(t = "sdn".toList ∧ ∃ v, matchOne ("bhd".toList) z = some v)) :
    matchSuffixAt (t ++ ' ' :: z) = none := by
  unfold matchSuffixAt
  rw [List.findSome?_eq_none_iff]
  intro σ hσ
  cases hv : matchOne σ (t ++ ' ' :: z) with
  | none => rfl
  | some v =>
    exfalso
    rcases matchOne_dispatch hσ htw htne (Or.inr ⟨z, rfl⟩) hv with rfl | ⟨h1, z', hz', h3⟩
    · exact hmem hσ
    · injection hz' with hc hzz
      subst hzz
      exact hsdn ⟨h1, v, h3⟩

theorem suffixSubAux_word_walk : ∀ (w r : List Char), (∀ c ∈ w, isWordChar c = true) →
    suffixSubAux true (w ++ r) = w ++ suffixSubAux true r := by
  intro w
  induction w with
  | nil => intro r _; simp
  | cons c w' ih =>
    intro r hw
    show suffixSubAux true (c :: (w' ++ r)) = _
    rw [suffixSubAux_cons_true]
    rw [hw c (List.mem_cons_self c w')]
    rw [ih r (fun d hd => hw d (List.mem_cons_of_mem c hd))]
    rfl

theorem suffixSubAux_word_all {w : List Char} (hw : ∀ c ∈ w, isWordChar c = true) :
    suffixSubAux true w = w := by
  have := suffixSubAux_word_walk w [] hw
  simpa [suffixSubAux_nil] using this

theorem matchOne_bhd_join {u : Name} {ts : List Name} {v : List Char}
    (hune : u ≠ []) (huw : ∀ c ∈ u, isWordChar c = true)
    (h : matchOne ("bhd".toList) (joinSpaces (u :: ts)) = some v) :
    u = "bhd".toList := by
  have hw : ∀ c ∈ ("bhd".toList : List Char), isWordChar c = true := by decide
  cases ts with
  | nil =>
    rw [joinSpaces_single] at h
    have h' : matchOne ("bhd".toList) (u ++ []) = some v := by simpa using h
    exact (matchOne_word_eq hw huw hune (Or.inl rfl) h').symm
  | cons w rest =>
    rw [joinSpaces_cons2] at h
    exact (matchOne_word_eq hw huw hune (Or.inr ⟨_, rfl⟩) h).symm

theorem scanner_tokens :
    ∀ (ts : List Name),
    (∀ t ∈ ts, t ≠ [] ∧ ∀ c ∈ t, isWordChar c = true) →
    List.Chain' (fun a b => ¬(a = "sdn".toList ∧ b = "bhd".toList)) ts →
    pySplit (suffixSubAux false (joinSpaces ts)) =
      ts.filter (fun t => !(suffixStrings.contains t)) := by
  intro ts
  induction ts with
  | nil => intro _ _; rfl
  | cons t rest ih =>
    intro hgood hchain
    obtain ⟨htne, htw⟩ := hgood t (List.mem_cons_self t rest)
    have htns : ∀ c ∈ t, isPySpace c = false :=
      fun c hc => (isWordChar_not_space (htw c hc)).1
    cases rest with
    | nil =>
      rw [joinSpaces_single]
      by_cases hmem : t ∈ suffixStrings
      · have hms : matchSuffixAt t = some [] := matchSuffixAt_token_last htw htne hmem
        cases t with
        | nil => exact absurd rfl htne
        | cons c t' =>
          rw [suffixSubAux_cons_match hms, suffixSubAux_nil, pySplit_space_cons]
          simp [List.filter_cons, hmem, pySplit, pySplitAux]
      · cases t with
        | nil => exact absurd rfl htne
        | cons c t' =>
          have hnone : matchSuffixAt (c :: t') = none :=
            matchSuffixAt_token_none_last htw htne hmem
          rw [suffixSubAux_cons_nomatch hnone]
          rw [htw c (List.mem_cons_self c t')]
          rw [suffixSubAux_word_all (fun d hd => htw d (List.mem_cons_of_mem c hd))]
          rw [pySplit_token_only htne htns]
          simp [List.filter_cons, hmem]
    | cons u rest' =>
      rw [joinSpaces_cons2]
      obtain ⟨hune, huw⟩ := hgood u (List.mem_cons_of_mem t (List.mem_cons_self u rest'))
      have hgood' : ∀ x ∈ u :: rest', x ≠ [] ∧ ∀ c ∈ x, isWordChar c = true :=
        fun x hx => hgood x (List.mem_cons_of_mem t hx)
      have hchain' : List.Chain' (fun a b => ¬(a = "sdn".toList ∧ b = "bhd".toList))
          (u :: rest') := (List.chain'_cons.1 hchain).2
      have hhead : ¬(t = "sdn".toList ∧ u = "bhd".toList) := (List.chain'_cons.1 hchain).1
      by_cases hmem : t ∈ suffixStrings
      · have hms : matchSuffixAt (t ++ ' ' :: joinSpaces (u :: rest')) =
            some (joinSpaces (u :: rest')) := matchSuffixAt_token_mid htw htne hmem
        cases t with
        | nil => exact absurd rfl htne
        | cons c t' =>
          rw [List.cons_append] at hms
          rw [List.cons_append, suffixSubAux_cons_match hms, pySplit_space_cons]
          rw [ih hgood' hchain']
          simp [List.filter_cons, hmem, pySplit, pySplitAux]
      · have hsdn : ¬((t = "sdn".toList ∧
            ∃ v, matchOne ("bhd".toList) (joinSpaces (u :: rest')) = some v)) := by
          rintro ⟨h1, v, h2⟩
          exact hhead ⟨h1, matchOne_bhd_join hune huw h2⟩
        have hnone : matchSuffixAt (t ++ ' ' :: joinSpaces (u :: rest')) = none :=
          matchSuffixAt_token_none_mid htw htne hmem hsdn
        cases t with
        | nil => exact absurd rfl htne
        | cons c t' =>
          rw [List.cons_append] at hnone
          rw [List.cons_append, suffixSubAux_cons_nomatch hnone]
          rw [htw c (List.mem_cons_self c t')]
          rw [suffixSubAux_word_walk t' (' ' :: joinSpaces (u :: rest'))
            (fun d hd => htw d (List.mem_cons_of_mem c hd))]
          rw [suffixSubAux_cons_true]
          have hspw : isWordChar ' ' = false := by decide
          rw [hspw]
          have hstep : pySplit ((c :: t') ++ ' ' :: suffixSubAux false (joinSpaces (u :: rest')))
              = (c :: t') :: pySplit (suffixSubAux false (joinSpaces (u :: rest'))) :=
            pySplit_token_append htne htns
          rw [show (c :: (t' ++ ' ' :: suffixSubAux false (joinSpaces (u :: rest')))) =
              ((c :: t') ++ ' ' :: suffixSubAux false (joinSpaces (u :: rest'))) from rfl]
          rw [hstep]
          rw [ih hgood' hchain']
          simp [List.filter_cons, hmem]

theorem insortName_perm (x : Name) :
    ∀ (l : List Name), (insortName x l).Perm (x :: l) := by
  intro l
  induction l with
  | nil => exact List.Perm.refl _
  | cons y ys ih =>
    show (if lexLe x y then x :: y :: ys else y :: insortName x ys).Perm (x :: y :: ys)
    by_cases h : lexLe x y
    · rw [if_pos h]
    · rw [if_neg h]
      exact (List.Perm.cons y ih).trans (List.Perm.swap x y ys)

theorem sortNames_perm (l : List Name) : (sortNames l).Perm l := by
  induction l with
  | nil => exact List.Perm.refl _
  | cons x xs ih =>
    show (insortName x (sortNames xs)).Perm (x :: xs)
    exact (insortName_perm x (sortNames xs)).trans (List.Perm.cons x ih)

theorem mem_sortNames {t : Name} {l : List Name} : t ∈ sortNames l ↔ t ∈ l :=
  (sortNames_perm l).mem_iff

theorem lexLe_of_not_lexLe {x y : Name} (h : lexLe x y = false) : lexLe y x = true := by
  induction x generalizing y with
  | nil => simp [lexLe] at h
  | cons a as ih =>
    cases y with
    | nil => rfl
    | cons b bs =>
      by_cases hab : a = b
      · subst hab
        have h' : lexLe as bs = false := by
          simpa [lexLe] using h
        show lexLe (a :: bs) (a :: as) = true
        simpa [lexLe] using ih h'
      · have hba : ¬ b = a := fun hh => hab hh.symm
        have h1 : decide (a < b) = false := by
          simpa [lexLe, hab] using h
        have h2 : ¬ a < b := of_decide_eq_false h1
        have h3 : b < a := lt_of_le_of_ne (le_of_not_lt h2) hba
        show lexLe (b :: bs) (a :: as) = true
        simp [lexLe, hba, h3]

theorem insortName_chain {x : Name} :
    ∀ {l : List Name}, List.Chain' (fun a b => lexLe a b = true) l →
    List.Chain' (fun a b => lexLe a b = true) (insortName x l) := by
  intro l
  induction l with
  | nil => intro _; simp [insortName]
  | cons y ys ih =>
    intro hc
    show List.Chain' _ (if lexLe x y then x :: y :: ys else y :: insortName x ys)
    by_cases h : lexLe x y
    · rw [if_pos h]
      exact List.chain'_cons.2 ⟨h, hc⟩
    · rw [if_neg h]
      have hyx : lexLe y x = true := lexLe_of_not_lexLe (Bool.eq_false_iff.2 h)
      have hc' := ih ((List.chain'_cons'.1 hc).2)
      cases ys with
      | nil =>
        show List.Chain' _ (y :: [x])
        exact List.chain'_cons.2 ⟨hyx, List.chain'_singleton x⟩
      | cons u us =>
        show List.Chain' _ (y :: insortName x (u :: us))
        refine List.chain'_cons'.2 ⟨?_, hc'⟩
        intro z hz
        show lexLe y z = true
        by_cases hxu : lexLe x u
        · have : insortName x (u :: us) = x :: u :: us := by
            show (if lexLe x u then x :: u :: us else u :: insortName x us) = _
            rw [if_pos hxu]
          rw [this] at hz
          have h9 : x = z := by simpa using hz
          subst h9
          exact hyx
        · have : insortName x (u :: us) = u :: insortName x us := by
            show (if lexLe x u then x :: u :: us else u :: insortName x us) = _
            rw [if_neg hxu]
          rw [this] at hz
          have h9 : u = z := by simpa using hz
          subst h9
          exact (List.chain'_cons.1 hc).1

theorem sortNames_chain (l : List Name) :
    List.Chain' (fun a b => lexLe a b = true) (sortNames l) := by
  induction l with
  | nil => simp [sortNames]
  | cons x xs ih =>
    show List.Chain' _ (insortName x (sortNames xs))
    exact insortName_chain ih

theorem sortNames_eq_of_chain :
    ∀ {l : List Name}, List.Chain' (fun a b => lexLe a b = true) l →
    sortNames l = l := by
  intro l
  induction l with
  | nil => intro _; rfl
  | cons x xs ih =>
    intro hc
    show insortName x (sortNames xs) = x :: xs
    rw [ih ((List.chain'_cons'.1 hc).2)]
    cases xs with
    | nil => rfl
    | cons u us =>
      show (if lexLe x u then x :: u :: us else u :: insortName x us) = x :: u :: us
      rw [if_pos (List.chain'_cons.1 hc).1]

theorem map_self {α} {f : α → α} :
    ∀ {l : List α}, (∀ a ∈ l, f a = a) → l.map f = l := by
  intro l
  induction l with
  | nil => intro _; rfl
  | cons a as ih =>
    intro h
    show f a :: as.map f = a :: as
    rw [h a (List.mem_cons_self a as), ih (fun b hb => h b (List.mem_cons_of_mem a hb))]

theorem mem_punctStrip {c : Char} {s : List Char} (h : c ∈ punctStrip s) :
    c = ' ' ∨ (c ∈ s ∧ isWordChar c = true) := by
  obtain ⟨d, hd, hfd⟩ := List.mem_map.1 h
  by_cases hw : (isWordChar d || d == ' ') = true
  · rw [if_pos hw] at hfd
    subst hfd
    by_cases hwd : isWordChar d = true
    · exact Or.inr ⟨hd, hwd⟩
    · have hwd' : isWordChar d = false := Bool.eq_false_iff.2 hwd
      have hds : (d == ' ') = true := by simpa [hwd'] using hw
      exact Or.inl (by simpa using hds)
  · rw [if_neg hw] at hfd
    exact Or.inl hfd.symm

theorem canonicalise_tokens_good (x : Name) :
    ∀ t ∈ sortNames (pySplit (punctStrip (suffixSub (lowerStr (normaliseUnicode x))))),
      t ≠ [] ∧ ∀ c ∈ t, isWordChar c = true ∧ c.toLower = c := by
  intro t ht
  have ht' := mem_sortNames.1 ht
  obtain ⟨hne, hc⟩ := pySplit_tokens t ht'
  refine ⟨hne, fun c hcm => ?_⟩
  obtain ⟨hns, hcmem⟩ := hc c hcm
  rcases mem_punctStrip hcmem with rfl | ⟨hmem2, hwc⟩
  · exact absurd hns (by simp [isPySpace])
  · refine ⟨hwc, ?_⟩
    have h3 : c = ' ' ∨ c ∈ lowerStr (normaliseUnicode x) :=
      suffixSubAux_chars (lowerStr (normaliseUnicode x)).length _ (le_refl _) false c hmem2
    rcases h3 with rfl | h4
    · exact absurd hns (by simp [isPySpace])
    · obtain ⟨d, hd, hfd⟩ := List.mem_map.1 h4
      rw [← hfd]
      exact toLower_idem d

theorem canonicalise_fixed_of_tokens {ts : List Name}
    (hgood : ∀ t ∈ ts, t ≠ [] ∧ ∀ c ∈ t, isWordChar c = true ∧ c.toLower = c)
    (hchain : List.Chain' (fun a b => lexLe a b = true) ts)
    (hns : ∀ t ∈ ts, ¬ t ∈ suffixStrings) :
    canonicalise (joinSpaces ts) = joinSpaces ts := by
  have hgw : ∀ t ∈ ts, t ≠ [] ∧ ∀ c ∈ t, isWordChar c = true :=
    fun t ht => ⟨(hgood t ht).1, fun c hc => ((hgood t ht).2 c hc).1⟩
  have hychars : ∀ c ∈ joinSpaces ts, (isWordChar c = true ∨ c = ' ') ∧ c.toLower = c := by
    intro c hc
    rcases joinSpaces_chars ts c hc with rfl | ⟨t, ht, hct⟩
    · exact ⟨Or.inr rfl, by decide⟩
    · exact ⟨Or.inl ((hgood t ht).2 c hct).1, ((hgood t ht).2 c hct).2⟩
  have hlower : lowerStr (joinSpaces ts) = joinSpaces ts :=
    map_self (fun c hc => (hychars c hc).2)
  have hsschars : ∀ c ∈ suffixSub (joinSpaces ts), isWordChar c = true ∨ c = ' ' := by
    intro c hc
    rcases suffixSubAux_chars (joinSpaces ts).length (joinSpaces ts) (le_refl _) false c hc
      with rfl | h2
    · exact Or.inr rfl
    · exact (hychars c h2).1
  have hpunct : punctStrip (suffixSub (joinSpaces ts)) = suffixSub (joinSpaces ts) := by
    apply map_self
    intro c hc
    rcases hsschars c hc with hw | rfl
    · rw [if_pos]
      simp [hw]
    · rw [if_pos]
      simp
  have hbhd : ("bhd".toList : Name) ∈ suffixStrings := by decide
  have hchain2 : List.Chain' (fun a b => ¬(a = "sdn".toList ∧ b = "bhd".toList)) ts := by
    have hp : ts.Pairwise (fun a b => ¬(a = "sdn".toList ∧ b = "bhd".toList)) := by
      apply List.pairwise_of_forall_mem_list
      intro a ha b hb
      rintro ⟨h1, rfl⟩
      exact hns _ hb hbhd
    exact hp.chain'
  have hscan : pySplit (suffixSub (joinSpaces ts)) =
      ts.filter (fun t => !(suffixStrings.contains t)) := scanner_tokens ts hgw hchain2
  have hfilter : ts.filter (fun t => !(suffixStrings.contains t)) = ts := by
    apply List.filter_eq_self.2
    intro t ht
    simp [hns t ht]
  have hsort : sortNames ts = ts := sortNames_eq_of_chain hchain
  show joinSpaces (sortNames (pySplit (punctStrip (suffixSub
    (lowerStr (normaliseUnicode (joinSpaces ts))))))) = joinSpaces ts
  simp only [normaliseUnicode]
  rw [hlower, hpunct, hscan, hfilter, hsort]

/-- C4: the claim that _canonicalise is idempotent on every string is false:
canonicalise("co-op") = "co op", whose token "co" then sits at a word boundary
followed by a space, so a second pass strips it as a corporate suffix and
returns "op". -/
theorem c4_canonicalise_counterexample :
    canonicalise (canonicalise (nm "co-op")) ≠ canonicalise (nm "co-op") := by
  decide

/-- C4 (amended): _canonicalise is idempotent on every string whose canonical
form contains no token that is itself one of the corporate suffixes; on such
strings a second application changes nothing. -/
theorem c4_amended_idempotent (x : Name)
    (h : ∀ t ∈ pySplit (canonicalise x), ¬ t ∈ suffixStrings) :
    canonicalise (canonicalise x) = canonicalise x := by
  have hgood := canonicalise_tokens_good x
  have hsplit : pySplit (canonicalise x) =
      sortNames (pySplit (punctStrip (suffixSub (lowerStr (normaliseUnicode x))))) := by
    show pySplit (joinSpaces _) = _
    apply pySplit_joinSpaces
    intro t ht
    exact ⟨(hgood t ht).1,
      fun c hc => (isWordChar_not_space ((hgood t ht).2 c hc).1).1⟩
  rw [hsplit] at h
  have hchain := sortNames_chain (pySplit (punctStrip (suffixSub (lowerStr (normaliseUnicode x)))))
  exact canonicalise_fixed_of_tokens hgood hchain h

theorem c4_amended_idempotent_witness :
    (∀ t ∈ pySplit (canonicalise (nm "Hello World")), ¬ t ∈ suffixStrings) ∧
    canonicalise (canonicalise (nm "Hello World")) = canonicalise (nm "Hello World") :=
  ⟨by decide, c4_amended_idempotent (nm "Hello World") (by decide)⟩
